import Mathlib

/-!
# ZenithSocket: verification of the incremental tree-synchronization engine

Shallow embedding of the core of the ZenithSocket repository:

* the consumer-side ingestion store kept by `registerRoutes` in
  `src/server/routes.ts` (the module-level `fastInstances` array,
  `instancesMap` lookup map, `cachedResponse` buffer and `fastConnection`
  record, together with the HTTP handlers that mutate them);
* the database storage layer `src/server/storage.ts` (`DatabaseStorage`),
  modelled as a list of rows with the upsert/constraint behaviour of the
  SQL statements;
* the producer-side change detector and update cycle of the embedded Lua
  client (`detectChanges` / `sendUpdates` in `src/unnamed/part_000`,
  `detectChanges` / `sendIncrementalUpdates` in
  `src/roblox-incremental-http-client.lua`);
* the initial-sync batch dispatcher of
  `src/roblox-incremental-http-client.lua` (`sendIncrementalUpdates`,
  `sendGameTreeBatch`);
* the tree reconciler of `src/client/src/components/status-bar.tsx`
  (`TreeView`'s `treeData` construction: node map, parent computation,
  essential-service synthesis, the two placement passes, and `sortTree`).

JavaScript `Map`s and Lua tables are embedded as association lists with
insertion-order semantics (`alSet` updates an existing key in place and
appends a fresh key at the end, exactly like `Map.set`).  Time stamps are
`Nat` parameters (`now`); JSON string buffers are represented by the list
of nodes they were stringified from.
-/

namespace ZenithSocket

/-- A synchronized node record (`GameInstance` in `src/shared/schema.ts`):
`id`, `name`, `className`, `path`, `parent` and an open property map
(values already rendered to strings, as the Lua hash code does with
`tostring`). -/
structure Node where
  id : String
  name : String
  className : String
  path : String
  parent : String
  properties : List (String × String)
deriving DecidableEq, Repr

/-! ## Association lists with JavaScript `Map` / Lua table semantics -/

/-- `Map.get` / `t[k]`: value at the first (unique) occurrence of the key. -/
def alGet {α : Type} : List (String × α) → String → Option α
  | [], _ => none
  | (k', v) :: rest, k => if k' = k then some v else alGet rest k

/-- `Map.set` / `t[k] = v`: update an existing key in place, append a
fresh key at the end (insertion-order semantics). -/
def alSet {α : Type} : List (String × α) → String → α → List (String × α)
  | [], k, v => [(k, v)]
  | (k', v') :: rest, k, v =>
    if k' = k then (k, v) :: rest else (k', v') :: alSet rest k v

/-- `Map.delete` / `t[k] = nil`. -/
def alDelete {α : Type} : List (String × α) → String → List (String × α)
  | [], _ => []
  | (k', v) :: rest, k =>
    if k' = k then alDelete rest k else (k', v) :: alDelete rest k

/-- `Map.has`. -/
def alHas {α : Type} (m : List (String × α)) (k : String) : Bool :=
  (alGet m k).isSome

/-- The paths of a list of nodes. -/
def pathsOf (l : List Node) : List String :=
  l.map (fun n => n.path)

/-- First node of the list carrying the given path (the reading of the
flat collection as a path-keyed collection). -/
def byPath (l : List Node) (p : String) : Option Node :=
  l.find? (fun n => n.path = p)

/-- `for (const n of ns) map.set(n.path, n)`. -/
def setAll (m : List (String × Node)) (ns : List Node) :
    List (String × Node) :=
  ns.foldl (fun m n => alSet m n.path n) m

/-! ## Database storage (`src/server/storage.ts`, `DatabaseStorage`)

Rows of the `game_instances` table, primary key `id`, unique constraint
on `path`. -/

/-- `DatabaseStorage.addInstance`: upsert with conflict target `id`; a
`path`-uniqueness violation makes the statement fail, and
`addInstancesBatch` skips the failed row. -/
def dbAddInstance (db : List Node) (inst : Node) : List Node :=
  if (db.find? (fun e => e.id = inst.id)).isSome then
    if (db.find? (fun e => e.path = inst.path ∧ ¬ e.id = inst.id)).isSome then
      db
    else db.map (fun e => if e.id = inst.id then inst else e)
  else if (db.find? (fun e => e.path = inst.path)).isSome then db
  else db ++ [inst]

/-- `DatabaseStorage.addInstancesBatch`: deduplicate the batch by path
(last instance with a given path wins, via a `Map`), then upsert each
remaining row, skipping failures. -/
def dbAddBatch (db : List Node) (instances : List Node) : List Node :=
  ((setAll [] instances).map (fun e => e.2)).foldl dbAddInstance db

/-- `DatabaseStorage.removeInstance`: `DELETE WHERE path = p`. -/
def dbRemoveInstance (db : List Node) (p : String) : List Node :=
  db.filter (fun e => ¬ e.path = p)

/-! ## The in-memory ingestion store (`src/server/routes.ts`)

The module-level mutable state of `registerRoutes`: `fastInstances`,
`instancesMap`, `cachedResponse` (kept as the node list it was
stringified from), the `fastConnection` record, and the database behind
`storage` (background writes are modelled as completing in order on the
single event loop).  The database's own connection row is not read by any
verified operation and is omitted. -/

structure ServerState where
  fastInstances : List Node
  instancesMap : List (String × Node)
  cachedResponse : List Node
  dbInstances : List Node
  isConnected : Bool
  connectedAt : Option Nat
  lastPing : Option Nat
deriving DecidableEq, Repr

/-- The initial module-level state of `routes.ts`. -/
def initialState : ServerState :=
  { fastInstances := []
    instancesMap := []
    cachedResponse := []
    dbInstances := []
    isConnected := false
    connectedAt := none
    lastPing := none }

/-- `GET /api/instances`: serves the pre-stringified `cachedResponse`. -/
def listNodes (st : ServerState) : List Node :=
  st.cachedResponse

/-- `POST /api/clear-instances`: clears the fast memory and (in the
background) the database; the connection record is untouched. -/
def clearInstances (st : ServerState) : ServerState :=
  { st with fastInstances := [], instancesMap := [], cachedResponse := [],
            dbInstances := [] }

/-- `POST /api/game-tree` (the full-snapshot `applySnapshot` operation):
updates the database connection row, clears the database collection and
batch-inserts the given instances.  The handler never touches
`fastInstances`, `instancesMap` or `cachedResponse`. -/
def applyGameTree (instances : List Node) (st : ServerState) : ServerState :=
  { st with dbInstances := dbAddBatch [] instances }

/-- `POST /api/game-tree-batch` (the `applyBatch` operation): drops the
batch entries whose path is already present in `fastInstances`, appends
the rest, records them in `instancesMap`, refreshes the cached response
when something was appended, marks the connection alive, and
batch-inserts the raw batch into the database in the background. -/
def applyGameTreeBatch (now : Nat) (instances : List Node)
    (st : ServerState) : ServerState :=
  let newInstances :=
    instances.filter (fun i => ¬ (pathsOf st.fastInstances).contains i.path)
  let fi' := st.fastInstances ++ newInstances
  { st with
    fastInstances := fi'
    instancesMap := setAll st.instancesMap newInstances
    cachedResponse := if newInstances.isEmpty then st.cachedResponse else fi'
    isConnected := true
    lastPing := some now
    dbInstances := dbAddBatch st.dbInstances instances }

/-- The `modified` loop body of `POST /api/incremental-update`: if the
path is in `instancesMap`, overwrite the first `fastInstances` entry with
that path (via `findIndex`) and re-point the map; otherwise append and
point the map. -/
def replaceFirstByPath (l : List Node) (n : Node) : List Node :=
  match l with
  | [] => []
  | x :: rest =>
    if x.path = n.path then n :: rest else x :: replaceFirstByPath rest n

def modStep (s : List Node × List (String × Node)) (n : Node) :
    List Node × List (String × Node) :=
  if alHas s.2 n.path then (replaceFirstByPath s.1 n, alSet s.2 n.path n)
  else (s.1 ++ [n], alSet s.2 n.path n)

/-- The `removed` pass of `POST /api/incremental-update`: filter
`fastInstances`, deleting each filtered-out path from `instancesMap` as
the filter callback runs. -/
def removeLoop (rs : List String) (l : List Node)
    (m : List (String × Node)) : List Node × List (String × Node) :=
  match l with
  | [] => ([], m)
  | x :: rest =>
    if rs.contains x.path then removeLoop rs rest (alDelete m x.path)
    else
      let r := removeLoop rs rest m
      (x :: r.1, r.2)

/-- The three guarded passes of `POST /api/incremental-update` over the
pair (`fastInstances`, `instancesMap`): append `added` and record it in
the map, upsert `modified` one by one, then remove `removed`. -/
def deltaCore (added modified : List Node) (removed : List String)
    (l : List Node) (m : List (String × Node)) :
    List Node × List (String × Node) :=
  let l1 := if added.isEmpty then l else l ++ added
  let m1 := if added.isEmpty then m else setAll m added
  let s2 := if modified.isEmpty then (l1, m1) else modified.foldl modStep (l1, m1)
  if removed.isEmpty then s2 else removeLoop removed s2.1 s2.2

/-- `POST /api/incremental-update` (the `applyDelta` operation): run the
three passes, refresh the cached response, mark the connection alive,
and mirror the delta into the database in the background. -/
def applyIncrementalUpdate (now : Nat) (added modified : List Node)
    (removed : List String) (st : ServerState) : ServerState :=
  let s3 := deltaCore added modified removed st.fastInstances st.instancesMap
  { st with
    fastInstances := s3.1
    instancesMap := s3.2
    cachedResponse := s3.1
    isConnected := true
    lastPing := some now
    dbInstances :=
      removed.foldl dbRemoveInstance
        (dbAddBatch (dbAddBatch st.dbInstances added) modified) }

/-- `POST /api/ping`: refresh `lastPing`, set `isConnected`, push the
connection record to the database in the background. -/
def applyPing (now : Nat) (st : ServerState) : ServerState :=
  { st with lastPing := some now, isConnected := true }

/-- The 5-second interval timeout checker: when more than 30000 ms have
passed since `lastPing` and the connection is marked alive, clear the
fast memory, the cached response, the connection record and (in the
background) the database. -/
def checkTimeout (now : Nat) (st : ServerState) : ServerState :=
  match st.lastPing with
  | none => st
  | some t =>
    if 30000 < now - t ∧ st.isConnected then
      { st with fastInstances := [], instancesMap := [],
                cachedResponse := [], dbInstances := [],
                isConnected := false, connectedAt := none, lastPing := none }
    else st

/-! ## Basic lemmas about the map and collection primitives -/

theorem alGet_nil {α : Type} (k : String) : alGet ([] : List (String × α)) k = none := rfl

theorem alGet_alSet {α : Type} (m : List (String × α)) (k k' : String) (v : α) :
    alGet (alSet m k v) k' = if k' = k then some v else alGet m k' := by
  induction m with
  | nil =>
    by_cases h : k = k'
    · subst h; simp [alSet, alGet]
    · simp [alSet, alGet, h, Ne.symm h]
  | cons e rest ih =>
    obtain ⟨k₀, v₀⟩ := e
    by_cases h0 : k₀ = k
    · subst h0
      by_cases h : k₀ = k'
      · subst h; simp [alSet, alGet]
      · simp [alSet, alGet, h, Ne.symm h]
    · by_cases h1 : k₀ = k'
      · subst h1
        simp [alSet, alGet, h0, Ne.symm h0]
      · by_cases h2 : k' = k
        · subst h2
          simp [alSet, alGet, h0, h1, ih]
        · simp [alSet, alGet, h0, h1, h2, ih]

theorem alGet_alDelete {α : Type} (m : List (String × α)) (k k' : String) :
    alGet (alDelete m k) k' = if k' = k then none else alGet m k' := by
  induction m with
  | nil =>
    by_cases h : k' = k
    · simp [alDelete, alGet, h]
    · simp [alDelete, alGet, h]
  | cons e rest ih =>
    obtain ⟨k₀, v₀⟩ := e
    by_cases h0 : k₀ = k
    · subst h0
      by_cases h : k' = k₀
      · subst h
        simp [alDelete, alGet, ih]
      · simp [alDelete, alGet, ih, h, Ne.symm h]
    · by_cases h1 : k₀ = k'
      · subst h1
        simp [alDelete, alGet, h0, Ne.symm h0, ih]
      · by_cases h2 : k' = k
        · subst h2
          simp [alDelete, alGet, h0, h1, ih]
        · simp [alDelete, alGet, h0, h1, h2, ih]

theorem pathsOf_append (a b : List Node) :
    pathsOf (a ++ b) = pathsOf a ++ pathsOf b := by
  simp [pathsOf]

theorem mem_pathsOf {l : List Node} {p : String} :
    p ∈ pathsOf l ↔ ∃ n ∈ l, n.path = p := by
  simp [pathsOf, List.mem_map]

theorem byPath_append (a b : List Node) (p : String) :
    byPath (a ++ b) p = (byPath a p).or (byPath b p) := by
  simp [byPath, List.find?_append]

theorem byPath_eq_none_iff {l : List Node} {p : String} :
    byPath l p = none ↔ p ∉ pathsOf l := by
  simp only [byPath, List.find?_eq_none, mem_pathsOf]
  constructor
  · intro h ⟨n, hn, hp⟩
    exact h n hn (by simpa using hp)
  · intro h n hn hp
    exact h ⟨n, hn, by simpa using hp⟩

theorem byPath_isSome_iff {l : List Node} {p : String} :
    (byPath l p).isSome ↔ p ∈ pathsOf l := by
  rcases h : byPath l p with _ | n
  · simpa using (byPath_eq_none_iff).mp h
  · simp only [Option.isSome_some, true_iff]
    have hm := List.mem_of_find?_eq_some h
    have hp := List.find?_some h
    exact mem_pathsOf.mpr ⟨n, hm, by simpa using hp⟩

theorem find?_eq_head?_filter {α : Type} (q : α → Bool) (l : List α) :
    l.find? q = (l.filter q).head? := by
  induction l with
  | nil => rfl
  | cons x rest ih =>
    cases hq : q x
    · rw [List.find?_cons_of_neg _ (by simp [hq]),
          List.filter_cons_of_neg (by simp [hq])]
      exact ih
    · rw [List.find?_cons_of_pos _ hq, List.filter_cons_of_pos hq]
      rfl

theorem filter_path_of_nodup {l : List Node} {p : String}
    (h : (pathsOf l).Nodup) :
    l.filter (fun n => n.path = p) = (byPath l p).toList := by
  induction l with
  | nil => rfl
  | cons x rest ih =>
    simp only [pathsOf, List.map_cons, List.nodup_cons] at h
    obtain ⟨hx, hrest⟩ := h
    by_cases hp : x.path = p
    · subst hp
      have hnone : byPath rest x.path = none := by
        rw [byPath_eq_none_iff]
        simpa [pathsOf] using hx
      have : rest.filter (fun n => n.path = x.path) = [] := by
        rw [ih hrest, hnone]; rfl
      simp [List.filter_cons, byPath, List.find?_cons, this]
    · simp only [List.filter_cons]
      rw [show (decide (x.path = p)) = false from by simpa using hp]
      simp only [byPath, List.find?_cons]
      rw [show (decide (x.path = p)) = false from by simpa using hp]
      exact ih hrest

theorem byPath_reverse_of_nodup {l : List Node} {p : String}
    (h : (pathsOf l).Nodup) :
    byPath l.reverse p = byPath l p := by
  have e1 : byPath l.reverse p
      = ((l.filter (fun n => n.path = p)).reverse).head? := by
    have e := find?_eq_head?_filter (fun n => decide (n.path = p)) l.reverse
    rw [List.filter_reverse] at e
    exact e
  have e2 : byPath l p = (l.filter (fun n => n.path = p)).head? :=
    find?_eq_head?_filter _ l
  rw [e1, filter_path_of_nodup h]
  rw [filter_path_of_nodup h] at e2
  rw [e2]
  rcases byPath l p with _ | n <;> simp [Option.toList]

theorem alGet_foldl_set {β : Type} (f : Node → β) (ns : List Node)
    (m0 : List (String × β)) (p : String) :
    alGet (ns.foldl (fun m n => alSet m n.path (f n)) m0) p
      = ((ns.reverse.find? (fun n => n.path = p)).map f).or (alGet m0 p) := by
  induction ns generalizing m0 with
  | nil => simp
  | cons n rest ih =>
    simp only [List.foldl_cons, List.reverse_cons, List.find?_append]
    rw [ih, alGet_alSet]
    rcases hf : rest.reverse.find? (fun x => x.path = p) with _ | v
    · by_cases h : n.path = p
      · simp [hf, List.find?_cons, h]
      · simp [hf, List.find?_cons, h, Ne.symm h]
    · simp [hf]

theorem alGet_setAll (m : List (String × Node)) (ns : List Node) (p : String) :
    alGet (setAll m ns) p = (ns.reverse.find? (fun n => n.path = p)).or (alGet m p) := by
  have := alGet_foldl_set (f := fun n => n) ns m p
  simpa [setAll, Option.map_id'] using this

theorem alGet_setAll_of_nodup (m : List (String × Node)) (ns : List Node)
    (p : String) (h : (pathsOf ns).Nodup) :
    alGet (setAll m ns) p = (byPath ns p).or (alGet m p) := by
  rw [alGet_setAll, ← byPath_reverse_of_nodup h]; rfl

theorem mem_pathsOf_reverse {l : List Node} {p : String} :
    p ∈ pathsOf l.reverse ↔ p ∈ pathsOf l := by
  simp [pathsOf]

theorem find?_reverse_isSome_iff {ns : List Node} {p : String} :
    (ns.reverse.find? (fun x => x.path = p)).isSome = true ↔ p ∈ pathsOf ns := by
  have := byPath_isSome_iff (l := ns.reverse) (p := p)
  rw [byPath] at this
  rw [this, mem_pathsOf_reverse]

/-! ## The map/list consistency invariant (claim C10) -/

/-- `p` is a key of the lookup map iff some element of the flat node list
has path `p`. -/
def PairConsistent (l : List Node) (m : List (String × Node)) : Prop :=
  ∀ p, (alGet m p).isSome = true ↔ p ∈ pathsOf l

/-- The ingestion-store invariant of claim C10. -/
def MapListConsistent (st : ServerState) : Prop :=
  PairConsistent st.fastInstances st.instancesMap

theorem pairConsistent_setAll {l : List Node} {m : List (String × Node)}
    (h : PairConsistent l m) (ns : List Node) :
    PairConsistent (l ++ ns) (setAll m ns) := by
  intro p
  rw [alGet_setAll]
  rw [Option.isSome_or, pathsOf_append, List.mem_append]
  constructor
  · intro hs
    rcases Bool.or_eq_true_iff.mp hs with hs | hs
    · exact Or.inr (find?_reverse_isSome_iff.mp hs)
    · exact Or.inl ((h p).mp hs)
  · intro hs
    rcases hs with hs | hs
    · exact Bool.or_eq_true_iff.mpr (Or.inr ((h p).mpr hs))
    · exact Bool.or_eq_true_iff.mpr (Or.inl (find?_reverse_isSome_iff.mpr hs))

theorem pathsOf_replaceFirstByPath (l : List Node) (n : Node) :
    pathsOf (replaceFirstByPath l n) = pathsOf l := by
  induction l with
  | nil => rfl
  | cons x rest ih =>
    by_cases h : x.path = n.path
    · simp [replaceFirstByPath, h, pathsOf]
    · simp [replaceFirstByPath, h, pathsOf] at ih ⊢
      exact ih

theorem pairConsistent_modStep {s : List Node × List (String × Node)}
    (h : PairConsistent s.1 s.2) (n : Node) :
    PairConsistent (modStep s n).1 (modStep s n).2 := by
  obtain ⟨l, m⟩ := s
  by_cases hh : alHas m n.path
  · have hmem : n.path ∈ pathsOf l := (h n.path).mp (by simpa [alHas] using hh)
    intro p
    simp only [modStep, if_pos hh]
    rw [alGet_alSet, pathsOf_replaceFirstByPath]
    by_cases hp : p = n.path
    · subst hp; simpa using hmem
    · rw [if_neg hp]; exact h p
  · intro p
    simp only [modStep, if_neg hh]
    rw [alGet_alSet, pathsOf_append, List.mem_append]
    by_cases hp : p = n.path
    · subst hp; simp [pathsOf]
    · rw [if_neg hp]
      rw [show (p ∈ pathsOf [n]) ↔ (p = n.path) from by simp [pathsOf, eq_comm]]
      simp only [or_iff_left hp]
      exact h p

theorem pairConsistent_foldl_modStep {s : List Node × List (String × Node)}
    (h : PairConsistent s.1 s.2) (ms : List Node) :
    PairConsistent (ms.foldl modStep s).1 (ms.foldl modStep s).2 := by
  induction ms generalizing s with
  | nil => exact h
  | cons n rest ih => exact ih (pairConsistent_modStep h n)

theorem removeLoop_fst (rs : List String) (l : List Node)
    (m : List (String × Node)) :
    (removeLoop rs l m).1 = l.filter (fun x => ! rs.contains x.path) := by
  induction l generalizing m with
  | nil => rfl
  | cons x rest ih =>
    by_cases hc : x.path ∈ rs
    · simp [removeLoop, hc, List.filter_cons, ih]
    · simp [removeLoop, hc, List.filter_cons, ih]

theorem removeLoop_snd (rs : List String) (l : List Node)
    (m : List (String × Node)) (p : String) :
    alGet (removeLoop rs l m).2 p
      = if p ∈ rs ∧ p ∈ pathsOf l then none else alGet m p := by
  induction l generalizing m with
  | nil => simp [removeLoop, pathsOf]
  | cons x rest ih =>
    by_cases hc : x.path ∈ rs
    · have hstep : removeLoop rs (x :: rest) m
          = removeLoop rs rest (alDelete m x.path) := by
        simp [removeLoop, hc]
      rw [hstep, ih, alGet_alDelete]
      by_cases hp : p = x.path
      · subst hp; simp [pathsOf, hc]
      · simp [pathsOf, hp]
    · have hstep : (removeLoop rs (x :: rest) m).2 = (removeLoop rs rest m).2 := by
        simp [removeLoop, hc]
      rw [hstep, ih]
      by_cases hp : p = x.path
      · subst hp; simp [pathsOf, hc]
      · simp [pathsOf, hp]

theorem pairConsistent_removeLoop {l : List Node} {m : List (String × Node)}
    (h : PairConsistent l m) (rs : List String) :
    PairConsistent (removeLoop rs l m).1 (removeLoop rs l m).2 := by
  intro p
  rw [removeLoop_fst, removeLoop_snd]
  constructor
  · intro hs
    by_cases hr : p ∈ rs ∧ p ∈ pathsOf l
    · rw [if_pos hr] at hs; simp at hs
    · rw [if_neg hr] at hs
      have hmem := (h p).mp hs
      have hnc : p ∉ rs := fun hcp => hr ⟨hcp, hmem⟩
      rcases mem_pathsOf.mp hmem with ⟨n, hn, rfl⟩
      exact mem_pathsOf.mpr ⟨n, List.mem_filter.mpr ⟨hn, by simpa using hnc⟩, rfl⟩
  · intro hmem
    rcases mem_pathsOf.mp hmem with ⟨n, hn, rfl⟩
    have h1 := List.mem_filter.mp hn
    have hnc : n.path ∉ rs := by simpa using h1.2
    rw [if_neg (fun hh => hnc hh.1)]
    exact (h n.path).mpr (mem_pathsOf.mpr ⟨n, h1.1, rfl⟩)

theorem pairConsistent_deltaCore {l : List Node} {m : List (String × Node)}
    (h : PairConsistent l m) (added modified : List Node)
    (removed : List String) :
    PairConsistent (deltaCore added modified removed l m).1
      (deltaCore added modified removed l m).2 := by
  by_cases ha : added.isEmpty <;> by_cases hm : modified.isEmpty <;>
    by_cases hr : removed.isEmpty <;> simp only [deltaCore, ha, hm, hr,
      if_true, if_false, Bool.false_eq_true, ite_true, ite_false]
  · exact h
  · exact pairConsistent_removeLoop h removed
  · exact pairConsistent_foldl_modStep (s := (l, m)) h modified
  · exact pairConsistent_removeLoop
      (pairConsistent_foldl_modStep (s := (l, m)) h modified) removed
  · exact pairConsistent_setAll h added
  · exact pairConsistent_removeLoop (pairConsistent_setAll h added) removed
  · exact pairConsistent_foldl_modStep (s := (l ++ added, setAll m added))
      (pairConsistent_setAll h added) modified
  · exact pairConsistent_removeLoop
      (pairConsistent_foldl_modStep (s := (l ++ added, setAll m added))
        (pairConsistent_setAll h added) modified) removed

theorem pairConsistent_nil : PairConsistent [] [] := by
  intro p
  simp [alGet, pathsOf]

/-- C10: after every ingestion operation of `routes.ts` — the batch
handler, the incremental-update handler, the clear handler and the
timeout-triggered clear — a path is a key of `instancesMap` iff some
element of `fastInstances` has that path; the invariant holds of the
initial state and is preserved by each operation. -/
theorem ingestionStore_map_list_consistent
    (st : ServerState) (h : MapListConsistent st) (now : Nat)
    (batch added modified : List Node) (removed : List String) :
    MapListConsistent initialState
    ∧ MapListConsistent (applyGameTreeBatch now batch st)
    ∧ MapListConsistent (applyIncrementalUpdate now added modified removed st)
    ∧ MapListConsistent (clearInstances st)
    ∧ MapListConsistent (checkTimeout now st) := by
  refine ⟨pairConsistent_nil, ?_, ?_, ?_, ?_⟩
  · exact pairConsistent_setAll h _
  · exact pairConsistent_deltaCore h added modified removed
  · exact pairConsistent_nil
  · show MapListConsistent (checkTimeout now st)
    rcases hlp : st.lastPing with _ | t
    · simp only [checkTimeout, hlp]; exact h
    · simp only [checkTimeout, hlp]
      split
      · exact pairConsistent_nil
      · exact h

/-- Witness for C10 at a concrete consistent state and concrete
operation arguments. -/
theorem ingestionStore_map_list_consistent_witness :
    MapListConsistent
      (applyIncrementalUpdate 7 [⟨"i2", "Y", "Part", "game.Y", "game", []⟩] []
        ["game.X"]
        (applyGameTreeBatch 3 [⟨"i1", "X", "Folder", "game.X", "game", []⟩]
          initialState)) := by
  have h0 : MapListConsistent initialState := pairConsistent_nil
  have h1 := (ingestionStore_map_list_consistent initialState h0 3
    [⟨"i1", "X", "Folder", "game.X", "game", []⟩] [] [] []).2.1
  exact (ingestionStore_map_list_consistent _ h1 7 []
    [⟨"i2", "Y", "Part", "game.Y", "game", []⟩] [] ["game.X"]).2.2.1

/-- C9: `POST /api/ping` refreshes the connection's last-seen time and
connected flag but leaves the node collection — `fastInstances`,
`instancesMap`, the served `cachedResponse` and the database rows —
unchanged. -/
theorem ping_refreshes_connection_only (now : Nat) (st : ServerState) :
    listNodes (applyPing now st) = listNodes st
    ∧ (applyPing now st).fastInstances = st.fastInstances
    ∧ (applyPing now st).instancesMap = st.instancesMap
    ∧ (applyPing now st).dbInstances = st.dbInstances
    ∧ (applyPing now st).lastPing = some now
    ∧ (applyPing now st).isConnected = true :=
  ⟨rfl, rfl, rfl, rfl, rfl, rfl⟩

/-! ## The producer-side change detector
(`detectChanges` / `sendUpdates` in the embedded client of
`src/unnamed/part_000`; `src/roblox-incremental-http-client.lua` is the
same algorithm with stored instances in place of stored hashes). -/

/-- `createHash`: concatenation of `name|className|parent` and one
`|key:value` segment per property, in table order. -/
def createHash (n : Node) : String :=
  n.properties.foldl (fun h kv => h ++ "|" ++ kv.1 ++ ":" ++ kv.2)
    (n.name ++ "|" ++ n.className ++ "|" ++ n.parent)

/-- A producer-emitted delta. -/
structure Delta where
  added : List Node
  modified : List Node
  removed : List String
deriving DecidableEq, Repr

/-- The `currByPath` table: `for _, inst in ipairs(current) do
currByPath[inst.path] = inst end`. -/
def buildByPath (current : List Node) : List (String × Node) :=
  current.foldl (fun m n => alSet m n.path n) []

/-- The `currHashes` table (also the unconditional replacement loop of
`sendUpdates`: `previousInstances[inst.path] = createHash(inst)`). -/
def buildHashes (current : List Node) : List (String × String) :=
  current.foldl (fun m n => alSet m n.path (createHash n)) []

/-- `detectChanges`: classify every `currByPath` entry as added (path
absent from the previous hash table) or modified (present with a
different hash), and every previous path absent from `currByPath` as
removed. -/
def detectChanges (prev : List (String × String)) (current : List Node) :
    Delta :=
  let currByPath := buildByPath current
  let currHashes := buildHashes current
  { added :=
      (currByPath.filter (fun e => (alGet prev e.1).isNone)).map (fun e => e.2)
    modified :=
      (currByPath.filter (fun e =>
        match alGet prev e.1 with
        | none => false
        | some ph => alGet currHashes e.1 ≠ some ph)).map (fun e => e.2)
    removed :=
      (prev.filter (fun e => (alGet currByPath e.1).isNone)).map (fun e => e.1) }

/-- The non-first-sync body of `sendUpdates`: run the detector, then
unconditionally replace the previous-state table with the current
snapshot's hashes. -/
def runDetectorCycle (prev : List (String × String)) (current : List Node) :
    Delta × List (String × String) :=
  (detectChanges prev current, buildHashes current)

/-! ### Association-list entry lemmas -/

def alKeys {α : Type} (m : List (String × α)) : List String :=
  m.map (fun e => e.1)

theorem mem_alSet {α : Type} {m : List (String × α)} {k : String} {v : α}
    {e : String × α} (h : e ∈ alSet m k v) : e = (k, v) ∨ e ∈ m := by
  induction m with
  | nil => simpa [alSet] using h
  | cons e0 rest ih =>
    obtain ⟨k₀, v₀⟩ := e0
    by_cases h0 : k₀ = k
    · simp only [alSet, if_pos h0] at h
      rcases List.mem_cons.mp h with h | h
      · exact Or.inl h
      · exact Or.inr (List.mem_cons_of_mem _ h)
    · simp only [alSet, if_neg h0] at h
      rcases List.mem_cons.mp h with h | h
      · exact Or.inr (h ▸ List.mem_cons_self _ _)
      · rcases ih h with h | h
        · exact Or.inl h
        · exact Or.inr (List.mem_cons_of_mem _ h)

theorem mem_alKeys_alSet {α : Type} {m : List (String × α)} {k k' : String}
    {v : α} :
    k' ∈ alKeys (alSet m k v) ↔ k' = k ∨ k' ∈ alKeys m := by
  induction m with
  | nil => simp [alSet, alKeys]
  | cons e0 rest ih =>
    obtain ⟨k₀, v₀⟩ := e0
    by_cases h0 : k₀ = k
    · subst h0
      simp only [alSet, if_pos rfl, alKeys, List.map_cons, List.mem_cons,
        eq_self_iff_true, ite_true]
      tauto
    · simp only [alSet, if_neg h0, alKeys, List.map_cons, List.mem_cons]
      rw [show (k' ∈ List.map (fun e => e.1) (alSet rest k v))
            ↔ (k' ∈ alKeys (alSet rest k v)) from Iff.rfl, ih]
      simp only [alKeys]
      tauto

theorem alKeys_alSet_nodup {α : Type} {m : List (String × α)} {k : String}
    {v : α} (h : (alKeys m).Nodup) : (alKeys (alSet m k v)).Nodup := by
  induction m with
  | nil => simp [alSet, alKeys]
  | cons e0 rest ih =>
    obtain ⟨k₀, v₀⟩ := e0
    simp only [alKeys, List.map_cons, List.nodup_cons] at h
    by_cases h0 : k₀ = k
    · subst h0
      simpa [alSet, alKeys, List.nodup_cons] using h
    · simp only [alSet, if_neg h0, alKeys, List.map_cons, List.nodup_cons]
      refine ⟨?_, ih h.2⟩
      intro hmem
      rcases mem_alKeys_alSet.mp hmem with h1 | h1
      · exact h0 h1
      · exact h.1 h1

theorem alGet_eq_some_of_mem {α : Type} {m : List (String × α)}
    (hnd : (alKeys m).Nodup) {k : String} {v : α} (h : (k, v) ∈ m) :
    alGet m k = some v := by
  induction m with
  | nil => cases h
  | cons e0 rest ih =>
    obtain ⟨k₀, v₀⟩ := e0
    simp only [alKeys, List.map_cons, List.nodup_cons] at hnd
    rcases List.mem_cons.mp h with h | h
    · cases h
      simp [alGet]
    · have hk : ¬ k₀ = k := by
        intro hh
        subst hh
        exact hnd.1 (List.mem_map.mpr ⟨(k₀, v), h, rfl⟩)
      simp only [alGet, if_neg hk]
      exact ih hnd.2 h

theorem mem_of_alGet_eq_some {α : Type} {m : List (String × α)}
    {k : String} {v : α} (h : alGet m k = some v) : (k, v) ∈ m := by
  induction m with
  | nil => cases h
  | cons e0 rest ih =>
    obtain ⟨k₀, v₀⟩ := e0
    by_cases h0 : k₀ = k
    · subst h0
      simp only [alGet, eq_self_iff_true, ite_true, Option.some.injEq] at h
      subst h
      exact List.mem_cons_self _ _
    · simp only [alGet, if_neg h0] at h
      exact List.mem_cons_of_mem _ (ih h)

theorem foldl_set_keys_nodup {α : Type} (f : Node → α) (cur : List Node) :
    (alKeys (cur.foldl (fun m n => alSet m n.path (f n)) [])).Nodup := by
  suffices hgen : ∀ (m0 : List (String × α)), (alKeys m0).Nodup →
      (alKeys (cur.foldl (fun m n => alSet m n.path (f n)) m0)).Nodup by
    exact hgen [] (by simp [alKeys])
  induction cur with
  | nil => intro m0 h; exact h
  | cons n rest ih =>
    intro m0 h
    exact ih _ (alKeys_alSet_nodup h)

theorem buildByPath_keys_nodup (cur : List Node) :
    (alKeys (buildByPath cur)).Nodup :=
  foldl_set_keys_nodup (fun n => n) cur

theorem buildHashes_keys_nodup (cur : List Node) :
    (alKeys (buildHashes cur)).Nodup :=
  foldl_set_keys_nodup createHash cur

theorem buildByPath_entry_path (cur : List Node) :
    ∀ e ∈ buildByPath cur, e.2.path = e.1 := by
  suffices hgen : ∀ (m0 : List (String × Node)),
      (∀ e ∈ m0, e.2.path = e.1) →
      ∀ e ∈ cur.foldl (fun m n => alSet m n.path n) m0, e.2.path = e.1 by
    exact hgen [] (by intro e h; cases h)
  induction cur with
  | nil => intro m0 h; exact h
  | cons n rest ih =>
    intro m0 h
    refine ih _ ?_
    intro e he
    rcases mem_alSet he with he | he
    · subst he; rfl
    · exact h e he

theorem alGet_buildByPath (cur : List Node) (p : String) :
    alGet (buildByPath cur) p = cur.reverse.find? (fun x => x.path = p) := by
  have h := alGet_foldl_set (f := fun n => n) cur [] p
  simpa [buildByPath, Option.map_id', alGet, Option.or_none] using h

theorem alGet_buildHashes (cur : List Node) (p : String) :
    alGet (buildHashes cur) p
      = (cur.reverse.find? (fun x => x.path = p)).map createHash := by
  have h := alGet_foldl_set (f := createHash) cur [] p
  simpa [buildHashes, alGet, Option.or_none] using h

theorem alGet_buildHashes_eq_map (cur : List Node) (p : String) :
    alGet (buildHashes cur) p = (alGet (buildByPath cur) p).map createHash := by
  rw [alGet_buildHashes, alGet_buildByPath]

theorem alGet_buildByPath_isSome_iff {cur : List Node} {p : String} :
    (alGet (buildByPath cur) p).isSome = true ↔ p ∈ pathsOf cur := by
  rw [alGet_buildByPath]
  exact find?_reverse_isSome_iff

/-- C4: the detector's delta contains as added exactly the snapshot
paths absent from the previous hash table, as modified exactly the
snapshot paths present in the previous table whose current hash differs
from the stored one, and as removed exactly the previous paths absent
from the snapshot; the three path sets are pairwise disjoint (unchanged
paths appear nowhere). -/
theorem detectChanges_exact (prev : List (String × String)) (cur : List Node) :
    (∀ p, p ∈ pathsOf (detectChanges prev cur).added
        ↔ p ∈ pathsOf cur ∧ alGet prev p = none)
    ∧ (∀ p, p ∈ pathsOf (detectChanges prev cur).modified
        ↔ ∃ n ph, alGet (buildByPath cur) p = some n
            ∧ alGet prev p = some ph ∧ createHash n ≠ ph)
    ∧ (∀ p, p ∈ (detectChanges prev cur).removed
        ↔ p ∈ alKeys prev ∧ p ∉ pathsOf cur)
    ∧ (∀ p, p ∈ pathsOf (detectChanges prev cur).added
        → p ∉ pathsOf (detectChanges prev cur).modified)
    ∧ (∀ p, p ∈ pathsOf (detectChanges prev cur).added
        → p ∉ (detectChanges prev cur).removed)
    ∧ (∀ p, p ∈ pathsOf (detectChanges prev cur).modified
        → p ∉ (detectChanges prev cur).removed) := by
  have hnd := buildByPath_keys_nodup cur
  have hadd : ∀ p, p ∈ pathsOf (detectChanges prev cur).added
      ↔ p ∈ pathsOf cur ∧ alGet prev p = none := by
    intro p
    constructor
    · intro hp
      rcases mem_pathsOf.mp hp with ⟨n, hn, rfl⟩
      simp only [detectChanges, List.mem_map] at hn
      rcases hn with ⟨e, hef, rfl⟩
      have hef' := List.mem_filter.mp hef
      have hE : e.2.path = e.1 := buildByPath_entry_path cur e hef'.1
      have hCB : alGet (buildByPath cur) e.1 = some e.2 :=
        alGet_eq_some_of_mem hnd hef'.1
      constructor
      · rw [hE]
        exact alGet_buildByPath_isSome_iff.mp (by rw [hCB]; rfl)
      · rw [hE]
        simpa [Option.isNone_iff_eq_none] using hef'.2
    · rintro ⟨hcur, hprev⟩
      have hs : (alGet (buildByPath cur) p).isSome = true :=
        alGet_buildByPath_isSome_iff.mpr hcur
      rcases hsome : alGet (buildByPath cur) p with _ | n
      · rw [hsome] at hs; cases hs
      · have hmem : (p, n) ∈ buildByPath cur := mem_of_alGet_eq_some hsome
        have hE : n.path = p := buildByPath_entry_path cur (p, n) hmem
        refine mem_pathsOf.mpr ⟨n, ?_, hE⟩
        simp only [detectChanges, List.mem_map]
        exact ⟨(p, n), List.mem_filter.mpr ⟨hmem, by simp [hprev]⟩, rfl⟩
  have hmod : ∀ p, p ∈ pathsOf (detectChanges prev cur).modified
      ↔ ∃ n ph, alGet (buildByPath cur) p = some n
          ∧ alGet prev p = some ph ∧ createHash n ≠ ph := by
    intro p
    constructor
    · intro hp
      rcases mem_pathsOf.mp hp with ⟨n, hn, rfl⟩
      simp only [detectChanges, List.mem_map] at hn
      rcases hn with ⟨e, hef, rfl⟩
      have hef' := List.mem_filter.mp hef
      have hE : e.2.path = e.1 := buildByPath_entry_path cur e hef'.1
      have hCB : alGet (buildByPath cur) e.1 = some e.2 :=
        alGet_eq_some_of_mem hnd hef'.1
      have hc := hef'.2
      rcases hpe : alGet prev e.1 with _ | ph
      · rw [hpe] at hc
        simp at hc
      · rw [hpe] at hc
        have hni : ¬ alGet (buildHashes cur) e.1 = some ph := by
          simpa using hc
        refine ⟨e.2, ph, ?_, ?_, ?_⟩
        · rw [hE]; exact hCB
        · rw [hE]; exact hpe
        · intro hcontra
          apply hni
          rw [alGet_buildHashes_eq_map, hCB, Option.map_some', hcontra]
    · rintro ⟨n, ph, hCB, hprev, hne⟩
      have hmem : (p, n) ∈ buildByPath cur := mem_of_alGet_eq_some hCB
      have hE : n.path = p := buildByPath_entry_path cur (p, n) hmem
      refine mem_pathsOf.mpr ⟨n, ?_, hE⟩
      simp only [detectChanges, List.mem_map]
      refine ⟨(p, n), List.mem_filter.mpr ⟨hmem, ?_⟩, rfl⟩
      simp only [hprev]
      simpa [alGet_buildHashes_eq_map, hCB] using hne
  have hrem : ∀ p, p ∈ (detectChanges prev cur).removed
      ↔ p ∈ alKeys prev ∧ p ∉ pathsOf cur := by
    intro p
    constructor
    · intro hp
      simp only [detectChanges, List.mem_map] at hp
      rcases hp with ⟨e, hef, rfl⟩
      have hef' := List.mem_filter.mp hef
      constructor
      · exact List.mem_map.mpr ⟨e, hef'.1, rfl⟩
      · intro hcur
        have hs : (alGet (buildByPath cur) e.1).isSome = true :=
          alGet_buildByPath_isSome_iff.mpr hcur
        have hn := Option.isNone_iff_eq_none.mp hef'.2
        rw [hn] at hs
        cases hs
    · rintro ⟨hk, hnc⟩
      rcases List.mem_map.mp hk with ⟨e, he, rfl⟩
      simp only [detectChanges, List.mem_map]
      refine ⟨e, List.mem_filter.mpr ⟨he, ?_⟩, rfl⟩
      rcases hsome : alGet (buildByPath cur) e.1 with _ | n
      · rfl
      · exact absurd (alGet_buildByPath_isSome_iff.mp (by rw [hsome]; rfl)) hnc
  refine ⟨hadd, hmod, hrem, ?_, ?_, ?_⟩
  · intro p hpa hpm
    rcases (hadd p).mp hpa with ⟨_, hnone⟩
    rcases (hmod p).mp hpm with ⟨n, ph, _, hsomep, _⟩
    rw [hnone] at hsomep
    cases hsomep
  · intro p hpa hpr
    rcases (hadd p).mp hpa with ⟨hcur, _⟩
    exact ((hrem p).mp hpr).2 hcur
  · intro p hpm hpr
    rcases (hmod p).mp hpm with ⟨n, ph, hCB, _, _⟩
    exact ((hrem p).mp hpr).2
      (alGet_buildByPath_isSome_iff.mp (by rw [hCB]; rfl))

theorem detectChanges_self (cur : List Node) :
    detectChanges (buildHashes cur) cur = ⟨[], [], []⟩ := by
  have hCBn := buildByPath_keys_nodup cur
  have hBHn := buildHashes_keys_nodup cur
  have hCB : ∀ e ∈ buildByPath cur, alGet (buildByPath cur) e.1 = some e.2 :=
    fun e he => alGet_eq_some_of_mem hCBn he
  have hBH : ∀ e ∈ buildByPath cur,
      alGet (buildHashes cur) e.1 = some (createHash e.2) := by
    intro e he
    rw [alGet_buildHashes_eq_map, hCB e he, Option.map_some']
  have h1 : (buildByPath cur).filter
      (fun e => (alGet (buildHashes cur) e.1).isNone) = [] := by
    rw [List.filter_eq_nil_iff]
    intro e he
    simp [hBH e he]
  have h2 : (buildByPath cur).filter (fun e =>
      match alGet (buildHashes cur) e.1 with
      | none => false
      | some ph => decide (¬ alGet (buildHashes cur) e.1 = some ph)) = [] := by
    rw [List.filter_eq_nil_iff]
    intro e he
    simp [hBH e he]
  have h3 : (buildHashes cur).filter
      (fun e => (alGet (buildByPath cur) e.1).isNone) = [] := by
    rw [List.filter_eq_nil_iff]
    intro e he
    have hs : alGet (buildHashes cur) e.1 = some e.2 :=
      alGet_eq_some_of_mem hBHn he
    rw [alGet_buildHashes_eq_map] at hs
    rcases Option.map_eq_some'.mp hs with ⟨n, hn, _⟩
    simp [hn]
  simp only [detectChanges, h1, h2, h3, List.map_nil]

/-- C5: after a detector cycle the previous-state table is replaced by
the current snapshot's hash table unconditionally (for every previous
table, including when the delta is empty), and starting from a table
that reflects the snapshot, running the cycle twice on the same snapshot
yields an empty delta both times. -/
theorem detectorCycle_unconditional_replace_and_idempotent
    (prev : List (String × String)) (cur : List Node) :
    (runDetectorCycle prev cur).2 = buildHashes cur
    ∧ (runDetectorCycle (buildHashes cur) cur).1 = ⟨[], [], []⟩
    ∧ (runDetectorCycle
        ((runDetectorCycle (buildHashes cur) cur).2) cur).1 = ⟨[], [], []⟩ :=
  ⟨rfl, detectChanges_self cur, detectChanges_self cur⟩

/-! ## The initial-sync batch dispatcher
(`sendIncrementalUpdates` / `sendGameTreeBatch` in
`src/roblox-incremental-http-client.lua`): `totalBatches =
math.ceil(n / BATCH_SIZE)`; for `batchIndex = 0 .. totalBatches - 1` the
batch holds the 1-based elements `batchIndex*B + 1 ..
min((batchIndex+1)*B, n)` and carries `isLastBatch = (batchIndex ==
totalBatches - 1)`. -/

/-- One emitted batch: `(batchIndex, isLastBatch, instances)`.  The Lua
numeric `for` from `startIdx` to `endIdx` collects `endIdx + 1 - startIdx`
elements (none when `endIdx < startIdx`). -/
def makeBatches (nodes : List Node) (B : Nat) : List (Nat × Bool × List Node) :=
  let totalBatches := (nodes.length + B - 1) / B
  (List.range totalBatches).map (fun batchIndex =>
    let startIdx := batchIndex * B + 1
    let endIdx := min ((batchIndex + 1) * B) nodes.length
    (batchIndex, decide (batchIndex = totalBatches - 1),
      (nodes.drop (startIdx - 1)).take (endIdx + 1 - startIdx)))

theorem ceil_div_step (B m : Nat) (hB : 0 < B) (hm : 1 ≤ m) :
    (m + B - 1) / B = ((m - B) + B - 1) / B + 1 := by
  rcases Nat.lt_or_ge B m with h | h
  · obtain ⟨m', rfl⟩ : ∃ m', m = m' + B := ⟨m - B, by omega⟩
    have hmb : m' + B - B = m' := by omega
    have h1 : m' + B + B - 1 = (m' + B - 1) + B := by omega
    rw [hmb, h1, Nat.add_div_right _ hB]
  · have h1 : (m + B - 1) / B = 1 :=
      Nat.div_eq_of_lt_le (by omega) (by omega)
    have h2 : m - B = 0 := by omega
    have h3 : (0 + B - 1) / B = 0 := Nat.div_eq_of_lt (by omega)
    rw [h1, h2, h3]

theorem chunks_flatten {α : Type} (B : Nat) (hB : 0 < B) :
    ∀ (n : Nat) (l : List α), l.length = n →
      ((List.range ((l.length + B - 1) / B)).map
        (fun i => (l.drop (i * B)).take B)).flatten = l := by
  intro n
  induction n using Nat.strong_induction_on with
  | _ n ih =>
    intro l hl
    rcases Nat.eq_zero_or_pos l.length with h0 | hpos
    · have hnil : l = [] := List.length_eq_zero.mp h0
      subst hnil
      have : (0 + B - 1) / B = 0 := Nat.div_eq_of_lt (by omega)
      simp [this]
    · have hstep := ceil_div_step B l.length hB hpos
      have hdroplen : (l.drop B).length = l.length - B := by simp
      rw [hstep, ← hdroplen, List.range_succ_eq_map, List.map_cons,
          List.map_map, List.flatten_cons]
      have htail : (List.range (((l.drop B).length + B - 1) / B)).map
            ((fun i => (l.drop (i * B)).take B) ∘ Nat.succ)
          = (List.range (((l.drop B).length + B - 1) / B)).map
            (fun i => ((l.drop B).drop (i * B)).take B) := by
        apply List.map_congr_left
        intro i _
        simp only [Function.comp_apply]
        rw [List.drop_drop]
        congr 2
        rw [Nat.succ_mul]
        omega
      rw [htail, ih ((l.drop B).length) (by rw [hdroplen]; omega) (l.drop B) rfl]
      simp [List.take_append_drop]

/-- C6: for a snapshot of `n ≥ 1` nodes and batch size `B > 0`, the
dispatcher emits exactly `⌈n/B⌉` batches, their indices are
`0, 1, …, ⌈n/B⌉ - 1` in delivery order, the concatenation of the
batches' node lists is the snapshot (no record split, dropped or
duplicated), and `isLastBatch` is true exactly on the batch with the
highest index. -/
theorem makeBatches_exact (nodes : List Node) (B : Nat)
    (hn : 1 ≤ nodes.length) (hB : 0 < B) :
    (makeBatches nodes B).length = (nodes.length + B - 1) / B
    ∧ 1 ≤ (makeBatches nodes B).length
    ∧ (makeBatches nodes B).map (fun b => b.1)
        = List.range ((nodes.length + B - 1) / B)
    ∧ ((makeBatches nodes B).map (fun b => b.2.2)).flatten = nodes
    ∧ (∀ b ∈ makeBatches nodes B,
        b.2.1 = true ↔ b.1 = (nodes.length + B - 1) / B - 1) := by
  have htotpos : 1 ≤ (nodes.length + B - 1) / B := by
    have : B * 1 ≤ nodes.length + B - 1 := by omega
    exact (Nat.le_div_iff_mul_le hB).mpr (by omega)
  refine ⟨by simp [makeBatches], ?_, ?_, ?_, ?_⟩
  · simpa [makeBatches] using htotpos
  · simp only [makeBatches, List.map_map]
    exact (List.map_congr_left (fun i _ => rfl)).trans (List.map_id _)
  · have hslice : ∀ i ∈ List.range ((nodes.length + B - 1) / B),
        (nodes.drop (i * B + 1 - 1)).take (min ((i + 1) * B) nodes.length + 1 - (i * B + 1))
          = (nodes.drop (i * B)).take B := by
      intro i hi
      have hilt : i + 1 ≤ (nodes.length + B - 1) / B := List.mem_range.mp hi
      have hmul : (i + 1) * B ≤ nodes.length + B - 1 :=
        (Nat.le_div_iff_mul_le hB).mp hilt
      have hx : i * B < nodes.length := by
        have : (i + 1) * B = i * B + B := by rw [Nat.succ_mul]
        omega
      have h1 : i * B + 1 - 1 = i * B := by omega
      have h2 : min ((i + 1) * B) nodes.length + 1 - (i * B + 1)
          = min B (nodes.length - i * B) := by
        have : (i + 1) * B = i * B + B := by rw [Nat.succ_mul]
        omega
      rw [h1, h2]
      apply List.take_eq_take.mpr
      simp only [List.length_drop]
      omega
    have : ((makeBatches nodes B).map (fun b => b.2.2))
        = (List.range ((nodes.length + B - 1) / B)).map
            (fun i => (nodes.drop (i * B)).take B) := by
      simp only [makeBatches, List.map_map]
      exact List.map_congr_left (fun i hi => hslice i hi)
    rw [this]
    exact chunks_flatten B hB nodes.length nodes rfl
  · intro b hb
    simp only [makeBatches, List.mem_map, List.mem_range] at hb
    rcases hb with ⟨i, hi, rfl⟩
    simp

/-- Witness for C6: a 5-node snapshot with batch size 2 yields batches
of sizes 2,2,1 with indices 0,1,2 and `isLast` only on index 2. -/
theorem makeBatches_exact_witness :
    (makeBatches [⟨"1", "a", "T", "game.a", "game", []⟩,
        ⟨"2", "b", "T", "game.b", "game", []⟩,
        ⟨"3", "c", "T", "game.c", "game", []⟩,
        ⟨"4", "d", "T", "game.d", "game", []⟩,
        ⟨"5", "e", "T", "game.e", "game", []⟩] 2).length = 3
    ∧ ((makeBatches [⟨"1", "a", "T", "game.a", "game", []⟩,
        ⟨"2", "b", "T", "game.b", "game", []⟩,
        ⟨"3", "c", "T", "game.c", "game", []⟩,
        ⟨"4", "d", "T", "game.d", "game", []⟩,
        ⟨"5", "e", "T", "game.e", "game", []⟩] 2).map
          (fun b => b.2.2)).flatten
      = [⟨"1", "a", "T", "game.a", "game", []⟩,
        ⟨"2", "b", "T", "game.b", "game", []⟩,
        ⟨"3", "c", "T", "game.c", "game", []⟩,
        ⟨"4", "d", "T", "game.d", "game", []⟩,
        ⟨"5", "e", "T", "game.e", "game", []⟩] := by
  have h := makeBatches_exact [⟨"1", "a", "T", "game.a", "game", []⟩,
    ⟨"2", "b", "T", "game.b", "game", []⟩,
    ⟨"3", "c", "T", "game.c", "game", []⟩,
    ⟨"4", "d", "T", "game.d", "game", []⟩,
    ⟨"5", "e", "T", "game.e", "game", []⟩] 2 (by decide) (by decide)
  exact ⟨h.1.trans (by decide), h.2.2.2.1⟩

/-! ## Path-indexed characterization of the ingestion passes
(towards claims C1 and C2) -/

/-- The lookup map agrees with the first-match reading of the flat list
(a well-formedness condition of the prior collection). -/
def MapMatchesList (l : List Node) (m : List (String × Node)) : Prop :=
  ∀ p, alGet m p = byPath l p

theorem byPath_of_mem_nodup {l : List Node} {n : Node}
    (hN : (pathsOf l).Nodup) (hmem : n ∈ l) : byPath l n.path = some n := by
  have hfil := filter_path_of_nodup (l := l) (p := n.path) hN
  have hmf : n ∈ l.filter (fun x => x.path = n.path) :=
    List.mem_filter.mpr ⟨hmem, by simp⟩
  rw [hfil] at hmf
  rcases hb : byPath l n.path with _ | x
  · rw [hb] at hmf; cases hmf
  · rw [hb] at hmf
    simp only [Option.toList, List.mem_singleton] at hmf
    rw [hmf]

theorem pathsOf_filter_nodup (q : Node → Bool) {l : List Node}
    (hN : (pathsOf l).Nodup) : (pathsOf (l.filter q)).Nodup := by
  simp only [pathsOf] at hN ⊢
  exact hN.sublist (List.Sublist.map _ (List.filter_sublist l))

theorem byPath_cons_of_ne {x : Node} {rest : List Node} {p : String}
    (h : ¬ x.path = p) : byPath (x :: rest) p = byPath rest p := by
  simp only [byPath]
  rw [List.find?_cons_of_neg _ (by simp [h])]

theorem byPath_cons_of_eq {x : Node} {rest : List Node} {p : String}
    (h : x.path = p) : byPath (x :: rest) p = some x := by
  simp only [byPath]
  rw [List.find?_cons_of_pos _ (by simp [h])]

theorem byPath_filter_pathPred (q : String → Bool) (l : List Node)
    (p : String) :
    byPath (l.filter (fun x => q x.path)) p
      = if q p then byPath l p else none := by
  induction l with
  | nil => simp [byPath]
  | cons x rest ih =>
    by_cases hxp : x.path = p
    · by_cases hq : q p
      · rw [List.filter_cons_of_pos (by rw [hxp]; exact hq), if_pos hq,
            byPath_cons_of_eq hxp, byPath_cons_of_eq hxp]
      · rw [List.filter_cons_of_neg (by rw [hxp]; simpa using hq), ih,
            if_neg hq, if_neg hq]
    · rw [show (if q p then byPath (x :: rest) p else none)
            = (if q p then byPath rest p else none) from by
          rw [byPath_cons_of_ne hxp]]
      by_cases hq : q x.path
      · rw [List.filter_cons_of_pos (by exact hq),
            byPath_cons_of_ne hxp, ih]
      · rw [List.filter_cons_of_neg (by simpa using hq), ih]

theorem byPath_replaceFirstByPath (l : List Node) (n : Node) (p : String) :
    byPath (replaceFirstByPath l n) p
      = if p = n.path then (byPath l p).map (fun _ => n) else byPath l p := by
  induction l with
  | nil =>
    by_cases hp : p = n.path <;> simp [replaceFirstByPath, byPath, hp]
  | cons x rest ih =>
    by_cases hx : x.path = n.path
    · rw [replaceFirstByPath, if_pos hx]
      by_cases hp : p = n.path
      · subst hp
        rw [if_pos rfl, byPath_cons_of_eq rfl, byPath_cons_of_eq hx]
        rfl
      · have hx' : ¬ n.path = p := fun h => hp h.symm
        have hxx : ¬ x.path = p := by rw [hx]; exact hx'
        rw [if_neg hp, byPath_cons_of_ne hx', byPath_cons_of_ne hxx]
    · rw [replaceFirstByPath, if_neg hx]
      by_cases hxp : x.path = p
      · have hp : ¬ p = n.path := fun h => hx (hxp.trans h)
        rw [if_neg hp, byPath_cons_of_eq hxp, byPath_cons_of_eq hxp]
      · rw [byPath_cons_of_ne hxp, byPath_cons_of_ne hxp]
        exact ih

theorem modStep_spec {l : List Node} {m : List (String × Node)} (n : Node)
    (hC : MapMatchesList l m) (hN : (pathsOf l).Nodup) :
    MapMatchesList (modStep (l, m) n).1 (modStep (l, m) n).2
    ∧ (pathsOf (modStep (l, m) n).1).Nodup
    ∧ ∀ p, byPath (modStep (l, m) n).1 p
        = if p = n.path then some n else byPath l p := by
  by_cases hh : alHas m n.path
  · have hsome : (byPath l n.path).isSome = true := by
      have := hC n.path
      simpa [alHas, this] using hh
    rcases hx : byPath l n.path with _ | x
    · rw [hx] at hsome; cases hsome
    have hchar : ∀ p, byPath (replaceFirstByPath l n) p
        = if p = n.path then some n else byPath l p := by
      intro p
      rw [byPath_replaceFirstByPath]
      by_cases hp : p = n.path
      · subst hp; rw [if_pos rfl, if_pos rfl, hx]; rfl
      · rw [if_neg hp, if_neg hp]
    refine ⟨?_, ?_, ?_⟩
    · intro p
      simp only [modStep, if_pos hh]
      rw [alGet_alSet, hchar p]
      by_cases hp : p = n.path
      · rw [if_pos hp, if_pos hp]
      · rw [if_neg hp, if_neg hp]
        exact hC p
    · simp only [modStep, if_pos hh]
      rw [show pathsOf (replaceFirstByPath l n) = pathsOf l from
        pathsOf_replaceFirstByPath l n]
      exact hN
    · intro p
      simp only [modStep, if_pos hh]
      exact hchar p
  · have hnone : byPath l n.path = none := by
      rcases hx : byPath l n.path with _ | x
      · rfl
      · exfalso
        have := hC n.path
        rw [hx] at this
        simp [alHas, this] at hh
    have hnmem : n.path ∉ pathsOf l := byPath_eq_none_iff.mp hnone
    have hchar : ∀ p, byPath (l ++ [n]) p
        = if p = n.path then some n else byPath l p := by
      intro p
      rw [byPath_append]
      by_cases hp : p = n.path
      · subst hp
        rw [hnone, if_pos rfl]
        simp [byPath, List.find?_cons]
      · rw [if_neg hp]
        have : byPath [n] p = none := by
          have hnp : ¬ n.path = p := fun h => hp h.symm
          simp [byPath, List.find?_cons, hnp]
        rw [this, Option.or_none]
    refine ⟨?_, ?_, ?_⟩
    · intro p
      simp only [modStep, if_neg hh]
      rw [alGet_alSet, hchar p]
      by_cases hp : p = n.path
      · rw [if_pos hp, if_pos hp]
      · rw [if_neg hp, if_neg hp]
        exact hC p
    · simp only [modStep, if_neg hh]
      rw [pathsOf_append, List.nodup_append]
      refine ⟨hN, by simp [pathsOf], ?_⟩
      intro a ha hmem
      simp only [pathsOf, List.map_cons, List.map_nil,
        List.mem_singleton] at hmem
      exact hnmem (hmem ▸ ha)
    · intro p
      simp only [modStep, if_neg hh]
      exact hchar p

theorem foldl_modStep_spec (ms : List Node) :
    ∀ (l : List Node) (m : List (String × Node)),
      MapMatchesList l m → (pathsOf l).Nodup →
      MapMatchesList (ms.foldl modStep (l, m)).1 (ms.foldl modStep (l, m)).2
      ∧ (pathsOf (ms.foldl modStep (l, m)).1).Nodup
      ∧ ∀ p, byPath (ms.foldl modStep (l, m)).1 p
          = (byPath ms.reverse p).or (byPath l p) := by
  induction ms with
  | nil =>
    intro l m hC hN
    exact ⟨hC, hN, fun p => by simp [byPath]⟩
  | cons n rest ih =>
    intro l m hC hN
    have hstep := modStep_spec n hC hN
    have hrec := ih (modStep (l, m) n).1 (modStep (l, m) n).2 hstep.1 hstep.2.1
    refine ⟨hrec.1, hrec.2.1, ?_⟩
    intro p
    have hchar := hrec.2.2 p
    rw [hstep.2.2 p] at hchar
    have hrevcons : byPath ((n :: rest).reverse) p
        = (byPath rest.reverse p).or (byPath [n] p) := by
      rw [List.reverse_cons, byPath_append]
    have hsingle : (byPath [n] p).or (byPath l p)
        = if p = n.path then some n else byPath l p := by
      by_cases hp : p = n.path
      · rw [if_pos hp, byPath_cons_of_eq hp.symm]
        rfl
      · have hnp : ¬ n.path = p := fun h => hp h.symm
        rw [if_neg hp, byPath_cons_of_ne hnp]
        exact Option.none_or
    rw [hrevcons, Option.or_assoc, hsingle]
    exact hchar

theorem addPass_spec (l : List Node) (m : List (String × Node))
    (added : List Node)
    (hC : MapMatchesList l m) (hN : (pathsOf l).Nodup)
    (hNa : (pathsOf added).Nodup)
    (hFresh : ∀ n ∈ added, n.path ∉ pathsOf l) :
    MapMatchesList (if added.isEmpty then l else l ++ added)
      (if added.isEmpty then m else setAll m added)
    ∧ (pathsOf (if added.isEmpty then l else l ++ added)).Nodup
    ∧ ∀ p, byPath (if added.isEmpty then l else l ++ added) p
        = (byPath l p).or (byPath added p) := by
  by_cases ha : added.isEmpty
  · have hemp : added = [] := by
      cases added
      · rfl
      · simp [List.isEmpty] at ha
    subst hemp
    refine ⟨by simpa using hC, by simpa using hN, ?_⟩
    intro p
    simp [byPath]
  · refine ⟨?_, ?_, ?_⟩
    · intro p
      rw [if_neg ha, if_neg ha, alGet_setAll_of_nodup m added p hNa, hC p,
          byPath_append]
      rcases hpa : byPath added p with _ | n
      · rw [Option.none_or, Option.or_none]
      · have hmem : n ∈ added := List.mem_of_find?_eq_some hpa
        have hpn : n.path = p := by simpa using List.find?_some hpa
        have hlnone : byPath l p = none := by
          rw [byPath_eq_none_iff]
          exact hpn ▸ hFresh n hmem
        rw [hlnone, Option.none_or]
        rfl
    · rw [if_neg ha, pathsOf_append, List.nodup_append]
      refine ⟨hN, hNa, ?_⟩
      intro a hal haa
      rcases mem_pathsOf.mp haa with ⟨n, hn, rfl⟩
      exact hFresh n hn hal
    · intro p
      rw [if_neg ha, byPath_append]

theorem modPass_spec (l1 : List Node) (m1 : List (String × Node))
    (modified : List Node)
    (hC : MapMatchesList l1 m1) (hN : (pathsOf l1).Nodup)
    (hNm : (pathsOf modified).Nodup) :
    MapMatchesList
      (if modified.isEmpty then (l1, m1)
       else modified.foldl modStep (l1, m1)).1
      (if modified.isEmpty then (l1, m1)
       else modified.foldl modStep (l1, m1)).2
    ∧ (pathsOf (if modified.isEmpty then (l1, m1)
        else modified.foldl modStep (l1, m1)).1).Nodup
    ∧ ∀ p, byPath (if modified.isEmpty then (l1, m1)
        else modified.foldl modStep (l1, m1)).1 p
        = (byPath modified p).or (byPath l1 p) := by
  by_cases hm : modified.isEmpty
  · have hemp : modified = [] := by
      cases modified
      · rfl
      · simp [List.isEmpty] at hm
    subst hemp
    refine ⟨by simpa using hC, by simpa using hN, ?_⟩
    intro p
    simp [byPath]
  · have hfold := foldl_modStep_spec modified l1 m1 hC hN
    refine ⟨by rw [if_neg hm]; exact hfold.1,
            by rw [if_neg hm]; exact hfold.2.1, ?_⟩
    intro p
    rw [if_neg hm, hfold.2.2 p, byPath_reverse_of_nodup hNm]

theorem remPass_spec (l2 : List Node) (m2 : List (String × Node))
    (removed : List String)
    (hC : MapMatchesList l2 m2) (hN : (pathsOf l2).Nodup) :
    MapMatchesList
      (if removed.isEmpty then (l2, m2) else removeLoop removed l2 m2).1
      (if removed.isEmpty then (l2, m2) else removeLoop removed l2 m2).2
    ∧ (pathsOf (if removed.isEmpty then (l2, m2)
        else removeLoop removed l2 m2).1).Nodup
    ∧ ∀ p, byPath (if removed.isEmpty then (l2, m2)
        else removeLoop removed l2 m2).1 p
        = if p ∈ removed then none else byPath l2 p := by
  by_cases hr : removed.isEmpty
  · have hemp : removed = [] := by
      cases removed
      · rfl
      · simp [List.isEmpty] at hr
    subst hemp
    refine ⟨by simpa using hC, by simpa using hN, ?_⟩
    intro p
    rw [if_neg (List.not_mem_nil p)]
    rfl
  · have hfst := removeLoop_fst removed l2 m2
    have hchar : ∀ p, byPath (removeLoop removed l2 m2).1 p
        = if p ∈ removed then none else byPath l2 p := by
      intro p
      rw [hfst]
      have := byPath_filter_pathPred (fun s => ! removed.contains s) l2 p
      rw [this]
      by_cases hp : p ∈ removed
      · rw [if_neg (by simp [hp]), if_pos hp]
      · rw [if_pos (by simp [hp]), if_neg hp]
    refine ⟨?_, ?_, ?_⟩
    · intro p
      rw [if_neg hr, removeLoop_snd, hchar p]
      by_cases hp : p ∈ removed
      · rw [if_pos hp]
        by_cases hm : p ∈ pathsOf l2
        · rw [if_pos ⟨hp, hm⟩]
        · rw [if_neg (fun hh => hm hh.2), hC p]
          exact byPath_eq_none_iff.mpr hm
      · rw [if_neg hp, if_neg (fun hh => hp hh.1)]
        exact hC p
    · rw [if_neg hr, hfst]
      exact pathsOf_filter_nodup _ hN
    · intro p
      rw [if_neg hr]
      exact hchar p

theorem deltaCore_spec (added modified : List Node) (removed : List String)
    (l : List Node) (m : List (String × Node))
    (hC : MapMatchesList l m) (hN : (pathsOf l).Nodup)
    (hNam : (pathsOf (added ++ modified)).Nodup)
    (hFresh : ∀ n ∈ added, n.path ∉ pathsOf l) :
    MapMatchesList (deltaCore added modified removed l m).1
      (deltaCore added modified removed l m).2
    ∧ (pathsOf (deltaCore added modified removed l m).1).Nodup
    ∧ ∀ p, byPath (deltaCore added modified removed l m).1 p
        = if p ∈ removed then none
          else (byPath modified p).or ((byPath l p).or (byPath added p)) := by
  have hNam' := hNam
  rw [pathsOf_append, List.nodup_append] at hNam'
  obtain ⟨hNa, hNm, _⟩ := hNam'
  have h1 := addPass_spec l m added hC hN hNa hFresh
  have h2 := modPass_spec _ _ modified h1.1 h1.2.1 hNm
  have h3 := remPass_spec _ _ removed h2.1 h2.2.1
  refine ⟨h3.1, h3.2.1, ?_⟩
  intro p
  have := h3.2.2 p
  rw [h2.2.2 p, h1.2.2 p] at this
  exact this

/-- C1 (amended): for a delta whose `added`/`modified`/`removed` path
sets are pairwise disjoint — and, additionally, whose `added` paths do
not already occur in the prior collection — applying
`POST /api/incremental-update` to a well-formed prior collection yields
a collection where every removed path is absent, every added or
modified node is present exactly once with exactly the given content
(in the flat list and in the lookup map), and every other path maps to
the same entries as before. -/
theorem applyIncrementalUpdate_spec (now : Nat) (st : ServerState)
    (added modified : List Node) (removed : List String)
    (hWF : MapMatchesList st.fastInstances st.instancesMap)
    (hN : (pathsOf st.fastInstances).Nodup)
    (hNam : (pathsOf (added ++ modified)).Nodup)
    (hRD : ∀ p ∈ removed, p ∉ pathsOf (added ++ modified))
    (hFresh : ∀ n ∈ added, n.path ∉ pathsOf st.fastInstances) :
    (∀ p ∈ removed,
        (applyIncrementalUpdate now added modified removed st).fastInstances.filter
          (fun x => x.path = p) = []
        ∧ alGet (applyIncrementalUpdate now added modified removed
            st).instancesMap p = none)
    ∧ (∀ n ∈ added ++ modified,
        (applyIncrementalUpdate now added modified removed st).fastInstances.filter
          (fun x => x.path = n.path) = [n]
        ∧ alGet (applyIncrementalUpdate now added modified removed
            st).instancesMap n.path = some n)
    ∧ (∀ p, p ∉ pathsOf (added ++ modified) → p ∉ removed →
        (applyIncrementalUpdate now added modified removed st).fastInstances.filter
            (fun x => x.path = p)
          = st.fastInstances.filter (fun x => x.path = p)
        ∧ alGet (applyIncrementalUpdate now added modified removed
            st).instancesMap p = alGet st.instancesMap p) := by
  obtain ⟨hDC, hDN, hDchar⟩ := deltaCore_spec added modified removed
    st.fastInstances st.instancesMap hWF hN hNam hFresh
  have hNam' := hNam
  rw [pathsOf_append, List.nodup_append] at hNam'
  obtain ⟨hNa, hNm, hdisj⟩ := hNam'
  have hfi : (applyIncrementalUpdate now added modified removed
      st).fastInstances
      = (deltaCore added modified removed st.fastInstances
          st.instancesMap).1 := rfl
  have hmap : (applyIncrementalUpdate now added modified removed
      st).instancesMap
      = (deltaCore added modified removed st.fastInstances
          st.instancesMap).2 := rfl
  refine ⟨?_, ?_, ?_⟩
  · intro p hp
    have hbp : byPath (deltaCore added modified removed st.fastInstances
        st.instancesMap).1 p = none := by
      rw [hDchar p, if_pos hp]
    constructor
    · rw [hfi, filter_path_of_nodup hDN, hbp]
      rfl
    · rw [hmap, hDC p, hbp]
  · intro n hn
    have hpam : n.path ∈ pathsOf (added ++ modified) :=
      mem_pathsOf.mpr ⟨n, hn, rfl⟩
    have hnr : n.path ∉ removed := fun hr => hRD n.path hr hpam
    have hbp : byPath (deltaCore added modified removed st.fastInstances
        st.instancesMap).1 n.path = some n := by
      rw [hDchar n.path, if_neg hnr]
      rcases List.mem_append.mp hn with hadd | hmod
      · have hmodnone : byPath modified n.path = none := by
          rw [byPath_eq_none_iff]
          exact hdisj (mem_pathsOf.mpr ⟨n, hadd, rfl⟩)
        have hlnone : byPath st.fastInstances n.path = none :=
          byPath_eq_none_iff.mpr (hFresh n hadd)
        rw [hmodnone, hlnone, Option.none_or, Option.none_or]
        exact byPath_of_mem_nodup hNa hadd
      · rw [byPath_of_mem_nodup hNm hmod]
        rfl
    constructor
    · rw [hfi, filter_path_of_nodup hDN, hbp]
      rfl
    · rw [hmap, hDC n.path, hbp]
  · intro p hpam hpr
    have hpa : p ∉ pathsOf added := by
      intro h
      exact hpam (by rw [pathsOf_append]; exact List.mem_append.mpr (Or.inl h))
    have hpm : p ∉ pathsOf modified := by
      intro h
      exact hpam (by rw [pathsOf_append]; exact List.mem_append.mpr (Or.inr h))
    have hbp : byPath (deltaCore added modified removed st.fastInstances
        st.instancesMap).1 p = byPath st.fastInstances p := by
      rw [hDchar p, if_neg hpr, byPath_eq_none_iff.mpr hpm,
          byPath_eq_none_iff.mpr hpa, Option.none_or, Option.or_none]
    constructor
    · rw [hfi, filter_path_of_nodup hDN, hbp, filter_path_of_nodup hN]
    · rw [hmap, hDC p, hbp, hWF p]

/-- Prior collection used in the C1 counterexample: one node at path
"game.X". -/
def nOldC1 : Node := ⟨"o1", "X", "Folder", "game.X", "game", [("v", "1")]⟩

/-- Delta node for the C1 counterexample: a different node at the same
path, sent as `added`. -/
def nNewC1 : Node := ⟨"n1", "X", "Folder", "game.X", "game", [("v", "2")]⟩

def stC1 : ServerState :=
  { fastInstances := [nOldC1]
    instancesMap := [("game.X", nOldC1)]
    cachedResponse := [nOldC1]
    dbInstances := [nOldC1]
    isConnected := true
    connectedAt := some 0
    lastPing := some 0 }

/-- C1 counterexample: when an `added` path already occurs in the prior
collection, the handler appends blindly — the flat list ends up with two
entries for the path, the stale one first, so add is a duplicating
append rather than an upsert and the collection does not hold exactly
the given content at that path. -/
theorem applyIncrementalUpdate_added_duplicates :
    (applyIncrementalUpdate 1 [nNewC1] [] [] stC1).fastInstances
      = [nOldC1, nNewC1]
    ∧ nOldC1.path = nNewC1.path
    ∧ nOldC1 ≠ nNewC1
    ∧ ¬ ((applyIncrementalUpdate 1 [nNewC1] [] [] stC1).fastInstances.filter
          (fun x => x.path = nNewC1.path) = [nNewC1]) := by
  decide

/-- Witness for C1 at concrete inputs: from the empty collection, a
delta adding "game.Y", modifying nothing and removing "game.Z" leaves
exactly the added node at its path. -/
theorem applyIncrementalUpdate_spec_witness :
    (applyIncrementalUpdate 5 [⟨"y", "Y", "Part", "game.Y", "game", []⟩] []
        ["game.Z"] initialState).fastInstances.filter
      (fun x => x.path = "game.Y")
      = [⟨"y", "Y", "Part", "game.Y", "game", []⟩]
    ∧ (applyIncrementalUpdate 5 [⟨"y", "Y", "Part", "game.Y", "game", []⟩] []
        ["game.Z"] initialState).fastInstances.filter
      (fun x => x.path = "game.Z") = [] := by
  have h := applyIncrementalUpdate_spec 5 initialState
    [⟨"y", "Y", "Part", "game.Y", "game", []⟩] [] ["game.Z"]
    (fun p => rfl) (by simp [initialState, pathsOf])
    (by simp [pathsOf])
    (by intro p hp; simp [pathsOf]; intro hpp; revert hp; rw [hpp]; decide)
    (by intro n hn; simp [initialState, pathsOf])
  refine ⟨?_, ?_⟩
  · exact ((h.2.1 ⟨"y", "Y", "Part", "game.Y", "game", []⟩ (by decide)).1)
  · exact (h.1 "game.Z" (by decide)).1

theorem applyGameTreeBatch_step (now : Nat) (b : List Node)
    (st : ServerState)
    (hC : MapMatchesList st.fastInstances st.instancesMap)
    (hN : (pathsOf st.fastInstances).Nodup)
    (hNb : (pathsOf b).Nodup) :
    MapMatchesList (applyGameTreeBatch now b st).fastInstances
      (applyGameTreeBatch now b st).instancesMap
    ∧ (pathsOf (applyGameTreeBatch now b st).fastInstances).Nodup
    ∧ ∀ p, byPath (applyGameTreeBatch now b st).fastInstances p
        = byPath (st.fastInstances ++ b) p := by
  have hNnew : (pathsOf (b.filter
      (fun i => ¬ (pathsOf st.fastInstances).contains i.path))).Nodup :=
    pathsOf_filter_nodup _ hNb
  have hnewchar : ∀ p, byPath (b.filter
      (fun i => ¬ (pathsOf st.fastInstances).contains i.path)) p
      = if (¬ (pathsOf st.fastInstances).contains p : Bool)
        then byPath b p else none :=
    fun p => byPath_filter_pathPred
      (fun s => (¬ (pathsOf st.fastInstances).contains s : Bool)) b p
  have hfi : (applyGameTreeBatch now b st).fastInstances
      = st.fastInstances ++ b.filter
          (fun i => ¬ (pathsOf st.fastInstances).contains i.path) := rfl
  have hmap : (applyGameTreeBatch now b st).instancesMap
      = setAll st.instancesMap (b.filter
          (fun i => ¬ (pathsOf st.fastInstances).contains i.path)) := rfl
  refine ⟨?_, ?_, ?_⟩
  · intro p
    rw [hfi, hmap, alGet_setAll_of_nodup _ _ _ hNnew, hC p, byPath_append,
        hnewchar p]
    by_cases hp : p ∈ pathsOf st.fastInstances
    · rw [if_neg (by simp [hp])]
      rw [Option.or_none]
      rcases hbp : byPath st.fastInstances p with _ | n
      · exact absurd (byPath_eq_none_iff.mp hbp) (by simpa using hp)
      · rfl
    · rw [if_pos (by simp [hp]), byPath_eq_none_iff.mpr hp, Option.none_or,
          Option.or_none]
  · rw [hfi, pathsOf_append, List.nodup_append]
    refine ⟨hN, hNnew, ?_⟩
    intro a hal haa
    rcases mem_pathsOf.mp haa with ⟨n, hn, rfl⟩
    have hmf := List.mem_filter.mp hn
    have : ¬ (pathsOf st.fastInstances).contains n.path := by
      simpa using hmf.2
    exact this (by simpa using hal)
  · intro p
    rw [hfi, byPath_append, byPath_append, hnewchar p]
    by_cases hp : p ∈ pathsOf st.fastInstances
    · rw [if_neg (by simp [hp])]
      rcases hbp : byPath st.fastInstances p with _ | n
      · exact absurd (byPath_eq_none_iff.mp hbp) (by simpa using hp)
      · rfl
    · rw [if_pos (by simp [hp])]

/-- The batch handler keeps the served response in sync with the flat
list: it re-stringifies `fastInstances` whenever something was appended,
and when nothing was appended the list is unchanged, so a response that
reflected the list beforehand still does. -/
theorem applyGameTreeBatch_cache (now : Nat) (b : List Node)
    (st : ServerState) (h : st.cachedResponse = st.fastInstances) :
    (applyGameTreeBatch now b st).cachedResponse
      = (applyGameTreeBatch now b st).fastInstances := by
  have key : ∀ (cr fi new : List Node), cr = fi →
      (if new.isEmpty then cr else fi ++ new) = fi ++ new := by
    intro cr fi new hcr
    cases new with
    | nil => rw [hcr]; simp
    | cons x xs => rfl
  exact key st.cachedResponse st.fastInstances
    (b.filter (fun i => ¬ (pathsOf st.fastInstances).contains i.path)) h

/-- C2 (amended): batches applied through `POST /api/game-tree-batch`
accumulate without clearing, but deduplication by path is
first-writer-wins: an entry whose path is already present in the
collection is dropped, so for batches with internally distinct paths
the node retained at a path is the one from the earliest-applied entry
with that path — the flat list and the lookup map read as the first
match in (prior collection ++ concatenation of the batches), and when
the served response reflected the flat list beforehand (as in the
initial state) it stays equal to the list, so `listNodes` reads the
same first-match collection. -/
theorem applyGameTreeBatch_accumulate_first_wins (now : Nat)
    (bs : List (List Node)) (st : ServerState)
    (hC : MapMatchesList st.fastInstances st.instancesMap)
    (hN : (pathsOf st.fastInstances).Nodup)
    (hNb : ∀ b ∈ bs, (pathsOf b).Nodup) :
    MapMatchesList
      (bs.foldl (fun s b => applyGameTreeBatch now b s) st).fastInstances
      (bs.foldl (fun s b => applyGameTreeBatch now b s) st).instancesMap
    ∧ (pathsOf
        (bs.foldl (fun s b => applyGameTreeBatch now b s) st).fastInstances).Nodup
    ∧ (∀ p, byPath
        (bs.foldl (fun s b => applyGameTreeBatch now b s) st).fastInstances p
        = byPath (st.fastInstances ++ bs.flatten) p)
    ∧ (∀ p, alGet
        (bs.foldl (fun s b => applyGameTreeBatch now b s) st).instancesMap p
        = byPath (st.fastInstances ++ bs.flatten) p)
    ∧ (st.cachedResponse = st.fastInstances →
        listNodes (bs.foldl (fun s b => applyGameTreeBatch now b s) st)
          = (bs.foldl (fun s b => applyGameTreeBatch now b s) st).fastInstances
        ∧ ∀ p, byPath
            (listNodes (bs.foldl (fun s b => applyGameTreeBatch now b s) st)) p
            = byPath (st.fastInstances ++ bs.flatten) p) := by
  induction bs generalizing st with
  | nil =>
    refine ⟨hC, hN, fun p => by simp, fun p => ?_, fun hcr => ⟨hcr, fun p => ?_⟩⟩
    · have : alGet st.instancesMap p = byPath st.fastInstances p := hC p
      simpa using this
    · show byPath st.cachedResponse p
        = byPath (st.fastInstances ++ List.flatten []) p
      rw [hcr]
      simp
  | cons b rest ih =>
    have hstep := applyGameTreeBatch_step now b st hC hN (hNb b (by simp))
    have hrec := ih (applyGameTreeBatch now b st) hstep.1 hstep.2.1
      (fun b' hb' => hNb b' (List.mem_cons_of_mem _ hb'))
    have hflat : ∀ p,
        byPath ((applyGameTreeBatch now b st).fastInstances
          ++ rest.flatten) p
        = byPath (st.fastInstances ++ (b :: rest).flatten) p := by
      intro p
      rw [byPath_append, hstep.2.2 p, List.flatten_cons, byPath_append,
          byPath_append, byPath_append, Option.or_assoc]
    refine ⟨hrec.1, hrec.2.1, ?_, ?_, ?_⟩
    · intro p
      rw [List.foldl_cons, hrec.2.2.1 p, hflat p]
    · intro p
      rw [List.foldl_cons, hrec.2.2.2.1 p, hflat p]
    · intro hcr
      have hcr1 := applyGameTreeBatch_cache now b st hcr
      have hres := hrec.2.2.2.2 hcr1
      refine ⟨hres.1, ?_⟩
      intro p
      rw [List.foldl_cons, hres.2 p, hflat p]

/-- First batch entry in the C2 counterexample. -/
def nAC2 : Node := ⟨"a1", "X", "Folder", "game.X", "game", [("v", "1")]⟩

/-- Second batch entry in the C2 counterexample: same path, different
content, applied later. -/
def nBC2 : Node := ⟨"b1", "X", "Folder", "game.X", "game", [("v", "2")]⟩

/-- C2 counterexample: two successive batches carrying the same path —
the final collection holds the node of the EARLIER batch (the later
entry is filtered out), refuting last-writer-wins. -/
theorem applyGameTreeBatch_not_last_writer_wins :
    (applyGameTreeBatch 1 [nBC2]
        (applyGameTreeBatch 0 [nAC2] initialState)).fastInstances = [nAC2]
    ∧ alGet (applyGameTreeBatch 1 [nBC2]
        (applyGameTreeBatch 0 [nAC2] initialState)).instancesMap "game.X"
      = some nAC2
    ∧ nAC2 ≠ nBC2 := by
  decide

/-- Witness for C2 at concrete inputs: applying the two same-path
batches of the counterexample via the fold, the lookup map holds the
first batch's node and the served response equals the flat list. -/
theorem applyGameTreeBatch_accumulate_first_wins_witness :
    alGet ([[nAC2], [nBC2]].foldl
        (fun s b => applyGameTreeBatch 7 b s) initialState).instancesMap
      "game.X"
      = byPath (initialState.fastInstances ++ [[nAC2], [nBC2]].flatten)
          "game.X"
    ∧ listNodes ([[nAC2], [nBC2]].foldl
        (fun s b => applyGameTreeBatch 7 b s) initialState)
      = ([[nAC2], [nBC2]].foldl
        (fun s b => applyGameTreeBatch 7 b s) initialState).fastInstances := by
  have h := applyGameTreeBatch_accumulate_first_wins 7 [[nAC2], [nBC2]]
    initialState (fun p => rfl) (by simp [initialState, pathsOf])
    (by
      intro b hb
      rcases List.mem_cons.mp hb with rfl | hb
      · decide
      · rcases List.mem_cons.mp hb with rfl | hb
        · decide
        · cases hb)
  exact ⟨h.2.2.2.1 "game.X", (h.2.2.2.2 rfl).1⟩

/-! ## Claim C7: `/api/game-tree` (applySnapshot) vs `/api/instances`
(listNodes) -/

def nOldC7 : Node := ⟨"o7", "Old", "Part", "game.Old", "game", []⟩

def nNewC7 : Node := ⟨"n7", "New", "Part", "game.New", "game", []⟩

def stC7 : ServerState :=
  { fastInstances := [nOldC7]
    instancesMap := [("game.Old", nOldC7)]
    cachedResponse := [nOldC7]
    dbInstances := [nOldC7]
    isConnected := true
    connectedAt := some 0
    lastPing := some 0 }

/-- C7 failing input: `POST /api/game-tree` with snapshot `[nNewC7]`
against a state whose in-memory collection holds `nOldC7`.  The handler
replaces the database contents with the snapshot, but `listNodes`
(`GET /api/instances`, serving the pre-stringified in-memory cache the
handler never updates) still returns the prior collection — not the
snapshot. -/
theorem applyGameTree_listNodes_stale :
    listNodes (applyGameTree [nNewC7] stC7) = [nOldC7]
    ∧ (applyGameTree [nNewC7] stC7).dbInstances = [nNewC7]
    ∧ ¬ listNodes (applyGameTree [nNewC7] stC7) = [nNewC7] := by
  decide

/-! ## The tree reconciler
(`TreeView`'s `treeData` construction in
`src/client/src/components/status-bar.tsx`).

The JavaScript builds a graph of mutable `TreeNode` objects held in
`nodeMap` and linked by `children` pushes; each object is identified by
its unique `path`, so the object graph is embedded as the triple
(`nodeMap` of flat records, `childrenMap` of parent-path → child-path
lists in push order, `rootNodes` list).  `depth`, `hasChildren` and
`isVisible` carry no structural content (`hasChildren` is a cached
`children ≠ []` flag, `isVisible` is constant `true`); only `depth` is
kept on the record. -/

structure TreeRec where
  id : String
  name : String
  className : String
  path : String
  parent : Option String
  depth : Nat
deriving DecidableEq, Repr

/-- `path.split('.')`. -/
def splitAux : List Char → List Char → List String
  | [], acc => [String.mk acc.reverse]
  | c :: rest, acc =>
    if c = '.' then String.mk acc.reverse :: splitAux rest []
    else splitAux rest (c :: acc)

def splitPath (s : String) : List String :=
  splitAux s.data []

/-- `segments.join('.')`. -/
def joinDot : List String → String
  | [] => ""
  | [s] => s
  | s :: rest => s ++ "." ++ joinDot rest

/-- `path.startsWith(p)`. -/
def strStarts (s p : String) : Bool :=
  p.data.isPrefixOf s.data

/-- The first `instances.forEach` pass: build `nodeMap` (keyed by path,
parent recomputed from the path, overriding the node's own `parent`
field) and `pathToParentMap`. -/
def initialMaps (instances : List Node) :
    List (String × TreeRec) × List (String × String) :=
  instances.foldl (fun acc inst =>
    let ss := splitPath inst.path
    let parentPath := if ss.length > 1 then some (joinDot ss.dropLast)
                      else none
    let pm := match parentPath with
      | some pp => alSet acc.2 inst.path pp
      | none => acc.2
    (alSet acc.1 inst.path
      ⟨inst.id, inst.name, inst.className, inst.path, parentPath,
        ss.length - 1⟩, pm))
    ([], [])

def gameRec : TreeRec := ⟨"game_root", "game", "DataModel", "game", none, 0⟩

/-- Synthesize the `game` root when absent. -/
def ensureRoot (nm : List (String × TreeRec)) (pm : List (String × String)) :
    List (String × TreeRec) × List (String × String) :=
  if alHas nm "game" then (nm, pm)
  else (alSet nm "game" gameRec, alDelete pm "game")

def essentialServices : List String :=
  ["Workspace", "Players", "Lighting", "ReplicatedStorage",
   "ServerStorage", "StarterGui", "StarterPlayer", "StarterPack"]

/-- Pre-create essential service nodes that have data but no node. -/
def addEssentialServices (instances : List Node)
    (acc : List (String × TreeRec) × List (String × String)) :
    List (String × TreeRec) × List (String × String) :=
  essentialServices.foldl (fun acc serviceName =>
    let servicePath := "game." ++ serviceName
    let hasKids := instances.any (fun i =>
      strStarts i.path (servicePath ++ ".") || i.path = servicePath)
    if hasKids ∧ ¬ alHas acc.1 servicePath then
      (alSet acc.1 servicePath
        ⟨"service_" ++ serviceName, serviceName, serviceName, servicePath,
          some "game", 1⟩,
       alSet acc.2 servicePath "game")
    else acc) acc

/-- `parentNode.children.push(node)` on the object graph. -/
def childAdd (cm : List (String × List String)) (parent child : String) :
    List (String × List String) :=
  alSet cm parent (((alGet cm parent).getD []) ++ [child])

/-- First placement pass over the `nodeMap` entries (insertion order):
attach under the computed parent when present, else classify as orphan;
`game` goes to the root list, other parentless paths are orphans.
Result: (childrenMap, rootNodes, orphanNodes). -/
def firstPass (nm : List (String × TreeRec)) (pm : List (String × String)) :
    List (String × List String) × List String × List String :=
  nm.foldl (fun acc e =>
    match alGet pm e.1 with
    | some pp =>
      if alHas nm pp then (childAdd acc.1 pp e.1, acc.2.1, acc.2.2)
      else (acc.1, acc.2.1, acc.2.2 ++ [e.1])
    | none =>
      if e.1 = "game" then (acc.1, acc.2.1 ++ [e.1], acc.2.2)
      else (acc.1, acc.2.1, acc.2.2 ++ [e.1]))
    ([], [], [])

/-- Placeholder classification for known top-level container names. -/
def serviceClassOf (nodeName : String) : String :=
  if nodeName = "Workspace" then "Workspace"
  else if nodeName = "Players" then "Players"
  else if nodeName = "Lighting" then "Lighting"
  else if nodeName = "ReplicatedStorage" then "ReplicatedStorage"
  else if nodeName = "ServerStorage" then "ServerStorage"
  else if nodeName = "StarterGui" then "StarterGui"
  else if nodeName = "StarterPlayer" then "StarterPlayer"
  else if nodeName = "StarterPack" then "StarterPack"
  else "Folder"

/-- Second pass for one orphan: walk the ancestor prefixes downward from
the immediate parent; on the first hit, synthesize the missing
intermediates beneath it and attach the orphan under the deepest one;
with no hit at all, push the orphan itself into the root list. -/
def placeOrphan
    (acc : List (String × TreeRec) × List (String × List String) × List String)
    (o : String) :
    List (String × TreeRec) × List (String × List String) × List String :=
  let nm := acc.1
  let cm := acc.2.1
  let roots := acc.2.2
  let ss := splitPath o
  match ((List.range (ss.length - 1)).reverse).find?
      (fun i => alHas nm (joinDot (ss.take (i + 1)))) with
  | none => (nm, cm, roots ++ [o])
  | some i =>
    let anc := joinDot (ss.take (i + 1))
    let stepped := (List.range' (i + 1) (ss.length - 1 - (i + 1))).foldl
      (fun st j =>
        let ip := joinDot (ss.take (j + 1))
        if alHas st.1 ip then (st.1, st.2.1, ip)
        else
          let nodeName := ss.getD j ""
          (alSet st.1 ip
            ⟨"placeholder_" ++ ip, nodeName, serviceClassOf nodeName, ip,
              some st.2.2, j⟩,
           childAdd st.2.1 st.2.2 ip, ip))
      (nm, cm, anc)
    (stepped.1, childAdd stepped.2.1 stepped.2.2 o, roots)

structure TreeData where
  nodeMap : List (String × TreeRec)
  childrenMap : List (String × List String)
  rootNodes : List String
deriving DecidableEq, Repr

/-- The full (unsorted) `treeData` construction. -/
def buildTreeData (instances : List Node) : TreeData :=
  let im := initialMaps instances
  let er := ensureRoot im.1 im.2
  let es := addEssentialServices instances er
  let fp := firstPass es.1 es.2
  let sp := fp.2.2.foldl placeOrphan (es.1, fp.1, fp.2.1)
  ⟨sp.1, sp.2.1, sp.2.2⟩

/-- `getServicePriority`. -/
def getServicePriority (nodeName : String) : Nat :=
  if nodeName = "game" then 0
  else if nodeName = "Workspace" then 1
  else if nodeName = "Players" then 2
  else if nodeName = "Lighting" then 3
  else if nodeName = "ReplicatedStorage" then 4
  else if nodeName = "ServerStorage" then 5
  else if nodeName = "StarterGui" then 6
  else if nodeName = "StarterPlayer" then 7
  else if nodeName = "StarterPack" then 8
  else 999

/-- "`a` sorts no later than `b`" under the `sortTree` comparator:
priority difference when the priorities differ, else the locale
comparison (`cmp` abstracts `localeCompare` with numeric + base
sensitivity; `a` precedes `b` when the comparator is ≤ 0, i.e. not
`gt`). -/
def recLE (cmp : String → String → Ordering) (a b : TreeRec) : Bool :=
  let pa := getServicePriority a.name
  let pb := getServicePriority b.name
  if pa ≠ pb then decide (pa < pb)
  else decide (cmp a.name b.name ≠ Ordering.gt)

/-- Stable insertion into a sorted list (a later-arriving equal element
lands after the earlier ones), modelling the stable `Array.sort`. -/
def insertSorted {α : Type} (le : α → α → Bool) (x : α) : List α → List α
  | [] => [x]
  | y :: ys => if le y x then y :: insertSorted le x ys else x :: y :: ys

/-- Stable sort by repeated insertion (the result JavaScript's stable
`Array.prototype.sort` produces for a consistent comparator). -/
def sortList {α : Type} (le : α → α → Bool) (l : List α) : List α :=
  l.foldl (fun acc x => insertSorted le x acc) []

/-- The records of a node's children, in push order. -/
def childRecs (td : TreeData) (p : String) : List TreeRec :=
  ((alGet td.childrenMap p).getD []).map
    (fun q => (alGet td.nodeMap q).getD ⟨"", "", "", q, none, 0⟩)

/-- A non-root sibling group of the reconciled tree, after `sortTree`. -/
def reconcileSiblings (cmp : String → String → Ordering)
    (instances : List Node) (p : String) : List TreeRec :=
  sortList (recLE cmp) (childRecs (buildTreeData instances) p)

/-- The root list of the reconciled tree, after `sortTree`. -/
def reconcileRoots (cmp : String → String → Ordering)
    (instances : List Node) : List TreeRec :=
  sortList (recLE cmp)
    ((buildTreeData instances).rootNodes.map
      (fun q => (alGet (buildTreeData instances).nodeMap q).getD
        ⟨"", "", "", q, none, 0⟩))

/-- Lexicographic comparison of char lists by code point — a concrete
total comparator standing in for `localeCompare` in evaluations. -/
def strCmpAux : List Char → List Char → Ordering
  | [], [] => Ordering.eq
  | [], _ :: _ => Ordering.lt
  | _ :: _, [] => Ordering.gt
  | a :: as, b :: bs =>
    if a.toNat < b.toNat then Ordering.lt
    else if b.toNat < a.toNat then Ordering.gt
    else strCmpAux as bs

def cmpLex (a b : String) : Ordering :=
  strCmpAux a.data b.data

theorem strCmpAux_refl_not_gt : ∀ xs : List Char, strCmpAux xs xs ≠ Ordering.gt := by
  intro xs
  induction xs with
  | nil => simp [strCmpAux]
  | cons a as ih =>
    simp only [strCmpAux, lt_irrefl, if_neg (lt_irrefl a.toNat)]
    simpa using ih

theorem strCmpAux_total : ∀ xs ys : List Char,
    strCmpAux xs ys ≠ Ordering.gt ∨ strCmpAux ys xs ≠ Ordering.gt := by
  intro xs
  induction xs with
  | nil =>
    intro ys
    cases ys <;> simp [strCmpAux]
  | cons a as ih =>
    intro ys
    cases ys with
    | nil => simp [strCmpAux]
    | cons b bs =>
      by_cases h1 : a.toNat < b.toNat
      · left
        simp [strCmpAux, h1]
      · by_cases h2 : b.toNat < a.toNat
        · right
          simp [strCmpAux, h1, h2]
        · rcases ih bs with h | h
          · left
            simpa [strCmpAux, h1, h2] using h
          · right
            simpa [strCmpAux, h1, h2] using h

theorem strCmpAux_trans : ∀ xs ys zs : List Char,
    strCmpAux xs ys ≠ Ordering.gt → strCmpAux ys zs ≠ Ordering.gt →
    strCmpAux xs zs ≠ Ordering.gt := by
  intro xs
  induction xs with
  | nil =>
    intro ys zs _ _
    cases zs <;> simp [strCmpAux]
  | cons a as ih =>
    intro ys zs h1 h2
    cases ys with
    | nil => simp [strCmpAux] at h1
    | cons b bs =>
      cases zs with
      | nil => simp [strCmpAux] at h2
      | cons c cs =>
        by_cases hab : a.toNat < b.toNat
        · by_cases hbc : b.toNat < c.toNat
          · simp [strCmpAux, show a.toNat < c.toNat from by omega]
          · by_cases hcb : c.toNat < b.toNat
            · simp [strCmpAux, hbc, hcb] at h2
            · simp [strCmpAux, show a.toNat < c.toNat from by omega]
        · by_cases hba : b.toNat < a.toNat
          · simp [strCmpAux, hab, hba] at h1
          · by_cases hbc : b.toNat < c.toNat
            · simp [strCmpAux, show a.toNat < c.toNat from by omega]
            · by_cases hcb : c.toNat < b.toNat
              · simp [strCmpAux, hbc, hcb] at h2
              · have hac : ¬ a.toNat < c.toNat := by omega
                have hca : ¬ c.toNat < a.toNat := by omega
                simp only [strCmpAux, if_neg hab, if_neg hba] at h1
                simp only [strCmpAux, if_neg hbc, if_neg hcb] at h2
                simp only [strCmpAux, if_neg hac, if_neg hca]
                exact ih bs cs h1 h2

theorem cmpLex_total (a b : String) :
    cmpLex a b ≠ Ordering.gt ∨ cmpLex b a ≠ Ordering.gt :=
  strCmpAux_total a.data b.data

theorem cmpLex_trans (a b c : String) (h1 : cmpLex a b ≠ Ordering.gt)
    (h2 : cmpLex b c ≠ Ordering.gt) : cmpLex a c ≠ Ordering.gt :=
  strCmpAux_trans a.data b.data c.data h1 h2

/-! ### Sortedness of every sibling group under the uniform comparator -/

theorem mem_insertSorted {α : Type} {le : α → α → Bool} {x y : α}
    {l : List α} : y ∈ insertSorted le x l ↔ y = x ∨ y ∈ l := by
  induction l with
  | nil => simp [insertSorted]
  | cons z zs ih =>
    by_cases h : le z x
    · simp only [insertSorted, if_pos h, List.mem_cons, ih]
      tauto
    · simp only [insertSorted, if_neg h, List.mem_cons]

theorem pairwise_insertSorted {α : Type} (le : α → α → Bool)
    (hTot : ∀ a b, (le a b || le b a) = true)
    (hTrans : ∀ a b c, le a b = true → le b c = true → le a c = true)
    (x : α) :
    ∀ l, List.Pairwise (fun a b => le a b = true) l →
      List.Pairwise (fun a b => le a b = true) (insertSorted le x l) := by
  intro l
  induction l with
  | nil =>
    intro _
    simp [insertSorted]
  | cons z zs ih =>
    intro h
    rcases List.pairwise_cons.mp h with ⟨hz, hzs⟩
    by_cases hle : le z x
    · rw [show insertSorted le x (z :: zs) = z :: insertSorted le x zs from
        by rw [insertSorted, if_pos hle]]
      refine List.pairwise_cons.mpr ⟨?_, ih hzs⟩
      intro y hy
      rcases mem_insertSorted.mp hy with rfl | hy
      · exact hle
      · exact hz y hy
    · rw [show insertSorted le x (z :: zs) = x :: z :: zs from
        by rw [insertSorted, if_neg hle]]
      have hxz : le x z = true := by
        rcases Bool.or_eq_true_iff.mp (hTot z x) with hh | hh
        · exact absurd hh hle
        · exact hh
      refine List.pairwise_cons.mpr ⟨?_, h⟩
      intro y hy
      rcases List.mem_cons.mp hy with rfl | hy
      · exact hxz
      · exact hTrans x z y hxz (hz y hy)

theorem pairwise_sortList {α : Type} (le : α → α → Bool)
    (hTot : ∀ a b, (le a b || le b a) = true)
    (hTrans : ∀ a b c, le a b = true → le b c = true → le a c = true)
    (l : List α) :
    List.Pairwise (fun a b => le a b = true) (sortList le l) := by
  suffices hgen : ∀ acc, List.Pairwise (fun a b => le a b = true) acc →
      List.Pairwise (fun a b => le a b = true)
        (l.foldl (fun acc x => insertSorted le x acc) acc) by
    exact hgen [] (by simp)
  induction l with
  | nil => intro acc h; exact h
  | cons x rest ih =>
    intro acc h
    exact ih _ (pairwise_insertSorted le hTot hTrans x acc h)

theorem recLE_total (cmp : String → String → Ordering)
    (hTot : ∀ a b, cmp a b ≠ Ordering.gt ∨ cmp b a ≠ Ordering.gt)
    (a b : TreeRec) : (recLE cmp a b || recLE cmp b a) = true := by
  by_cases h : getServicePriority a.name = getServicePriority b.name
  · rcases hTot a.name b.name with hh | hh
    · have hr : recLE cmp a b = true := by simp [recLE, h, hh]
      simp [hr]
    · have hr : recLE cmp b a = true := by simp [recLE, h.symm, hh]
      simp [hr]
  · rcases Nat.lt_or_ge (getServicePriority a.name)
        (getServicePriority b.name) with hlt | hge
    · have hr : recLE cmp a b = true := by simp [recLE, h, hlt]
      simp [hr]
    · have hlt2 : getServicePriority b.name < getServicePriority a.name := by
        omega
      have hr : recLE cmp b a = true := by simp [recLE, Ne.symm h, hlt2]
      simp [hr]

theorem recLE_trans (cmp : String → String → Ordering)
    (hTrans : ∀ a b c, cmp a b ≠ Ordering.gt → cmp b c ≠ Ordering.gt →
      cmp a c ≠ Ordering.gt)
    (a b c : TreeRec) (h1 : recLE cmp a b = true) (h2 : recLE cmp b c = true) :
    recLE cmp a c = true := by
  by_cases hab : getServicePriority a.name = getServicePriority b.name
  · simp only [recLE, hab, ne_eq, not_true_eq_false, if_false,
      decide_eq_true_eq] at h1
    by_cases hbc : getServicePriority b.name = getServicePriority c.name
    · simp only [recLE, hbc, ne_eq, not_true_eq_false, if_false,
        decide_eq_true_eq] at h2
      simp only [recLE, hab.trans hbc, ne_eq, not_true_eq_false, if_false,
        decide_eq_true_eq]
      exact hTrans a.name b.name c.name h1 h2
    · simp only [recLE, ne_eq, hbc, not_false_eq_true, if_true,
        decide_eq_true_eq] at h2
      have hne : getServicePriority a.name ≠ getServicePriority c.name := by
        omega
      have hlt : getServicePriority a.name < getServicePriority c.name := by
        omega
      simp [recLE, hne, hlt]
  · simp only [recLE, ne_eq, hab, not_false_eq_true, if_true,
      decide_eq_true_eq] at h1
    by_cases hbc : getServicePriority b.name = getServicePriority c.name
    · have hne : getServicePriority a.name ≠ getServicePriority c.name := by
        omega
      have hlt : getServicePriority a.name < getServicePriority c.name := by
        omega
      simp [recLE, hne, hlt]
    · simp only [recLE, ne_eq, hbc, not_false_eq_true, if_true,
        decide_eq_true_eq] at h2
      have hne : getServicePriority a.name ≠ getServicePriority c.name := by
        omega
      have hlt : getServicePriority a.name < getServicePriority c.name := by
        omega
      simp [recLE, hne, hlt]

/-- C8 (amended): `sortTree` applies one and the same comparator —
well-known-name priority first, then the locale comparison — to every
sibling group at every depth, not only to the root's direct children:
every sibling group of the reconciled tree (each `children` list and the
root list) is sorted by that uniform comparator. -/
theorem reconciled_siblings_sorted_uniformly (cmp : String → String → Ordering)
    (hTot : ∀ a b, cmp a b ≠ Ordering.gt ∨ cmp b a ≠ Ordering.gt)
    (hTrans : ∀ a b c, cmp a b ≠ Ordering.gt → cmp b c ≠ Ordering.gt →
      cmp a c ≠ Ordering.gt)
    (instances : List Node) (p : String) :
    List.Pairwise (fun a b => recLE cmp a b = true)
      (reconcileSiblings cmp instances p)
    ∧ List.Pairwise (fun a b => recLE cmp a b = true)
      (reconcileRoots cmp instances) :=
  ⟨pairwise_sortList (recLE cmp) (recLE_total cmp hTot) (recLE_trans cmp hTrans) _,
   pairwise_sortList (recLE cmp) (recLE_total cmp hTot) (recLE_trans cmp hTrans) _⟩

/-- Witness for C8 at a concrete comparator, collection and sibling
group. -/
theorem reconciled_siblings_sorted_uniformly_witness :
    List.Pairwise (fun a b => recLE cmpLex a b = true)
      (reconcileSiblings cmpLex
        [⟨"g", "game", "DataModel", "game", "nil", []⟩,
         ⟨"f", "Folder1", "Folder", "game.Folder1", "game", []⟩,
         ⟨"w", "Workspace", "Folder", "game.Folder1.Workspace", "Folder1", []⟩,
         ⟨"ap", "Apple", "Folder", "game.Folder1.Apple", "Folder1", []⟩]
        "game.Folder1") :=
  (reconciled_siblings_sorted_uniformly cmpLex cmpLex_total cmpLex_trans
    [⟨"g", "game", "DataModel", "game", "nil", []⟩,
     ⟨"f", "Folder1", "Folder", "game.Folder1", "game", []⟩,
     ⟨"w", "Workspace", "Folder", "game.Folder1.Workspace", "Folder1", []⟩,
     ⟨"ap", "Apple", "Folder", "game.Folder1.Apple", "Folder1", []⟩]
    "game.Folder1").1

/-- C8 counterexample: in the sibling group under `game.Folder1` (depth
1, not a root child), a node named `Workspace` is ordered before a node
named `Apple` because the service-priority comparator applies at every
depth — alphabetically (`Apple` < `Workspace`, also under the
comparator itself) `Apple` would come first. -/
theorem deep_sibling_priority_counterexample :
    (reconcileSiblings cmpLex
      [⟨"g", "game", "DataModel", "game", "nil", []⟩,
       ⟨"f", "Folder1", "Folder", "game.Folder1", "game", []⟩,
       ⟨"w", "Workspace", "Folder", "game.Folder1.Workspace", "Folder1", []⟩,
       ⟨"ap", "Apple", "Folder", "game.Folder1.Apple", "Folder1", []⟩]
      "game.Folder1").map (fun r => r.name) = ["Workspace", "Apple"]
    ∧ cmpLex "Apple" "Workspace" = Ordering.lt := by
  decide

/-! ### Claim C3: orphan resolution -/

/-- The node at path "a.b.c" of claim C3's scenario. -/
def nABC : Node := ⟨"c1", "c", "Part", "a.b.c", "b", []⟩

/-- The contrast node at path "game.b.c" (its ancestor walk reaches the
synthesized root). -/
def nGBC : Node := ⟨"c2", "c", "Part", "game.b.c", "b", []⟩

/-- C3 counterexample: for the collection `{"a.b.c"}` with no "a" or
"a.b", reconciliation synthesizes NO placeholder for "a" or "a.b" and
attaches nothing under the root: the orphan is pushed into the
top-level root list as a sibling of the synthesized `game` root. -/
theorem orphan_no_ancestor_counterexample :
    alGet (buildTreeData [nABC]).nodeMap "a" = none
    ∧ alGet (buildTreeData [nABC]).nodeMap "a.b" = none
    ∧ alGet (buildTreeData [nABC]).childrenMap "game" = none
    ∧ (buildTreeData [nABC]).rootNodes = ["game", "a.b.c"] := by
  decide

/-- C3 (amended): an orphan none of whose proper path-prefix ancestors
exists is placed directly into the top-level root list (a sibling of the
synthesized root) with no placeholders created — never dropped;
placeholder synthesis happens only below an existing ancestor: for
`{"game.b.c"}` the placeholder "game.b" is synthesized, attached under
the existing root, and the node attached beneath it. -/
theorem orphan_resolution_amended :
    (buildTreeData [nABC]).rootNodes = ["game", "a.b.c"]
    ∧ (buildTreeData [nABC]).childrenMap = []
    ∧ alGet (buildTreeData [nABC]).nodeMap "a" = none
    ∧ alGet (buildTreeData [nABC]).nodeMap "a.b" = none
    ∧ alGet (buildTreeData [nABC]).nodeMap "a.b.c"
        = some ⟨"c1", "c", "Part", "a.b.c", some "a.b", 2⟩
    ∧ alGet (buildTreeData [nGBC]).nodeMap "game.b"
        = some ⟨"placeholder_game.b", "b", "Folder", "game.b", some "game", 1⟩
    ∧ alGet (buildTreeData [nGBC]).childrenMap "game" = some ["game.b"]
    ∧ alGet (buildTreeData [nGBC]).childrenMap "game.b" = some ["game.b.c"]
    ∧ (buildTreeData [nGBC]).rootNodes = ["game"] := by
  decide

end ZenithSocket
